import Mathlib

/-!
Shallow embedding of `src/papergrid/src/lib.rs` (the `papergrid` table
rendering crate) and proofs about the claims of its specification.

Modelling conventions, chosen once and used consistently:

* Rust `String` / `&str` values are modelled as `List Char` (`Str` below).
  Rust `str::len` counts UTF-8 bytes, so it is modelled by `byteLen`
  (summing `Char.utf8Size`); `str::chars().count()` and the character
  width used by `format!` padding are the list length.
* Rust `f32` values (the cell "portions") are modelled by the type `F`:
  either `nan`, `inf`, or an exact nonnegative rational kept as an
  unnormalized numerator/denominator pair (`Frac`, with value `Frac.val`
  in `ℚ`).  All multiplications and divisions are modelled exactly;
  `0.0/0.0` is `nan`, `x/0.0` with `x > 0` is `inf`, `W as f32 * portion`
  is exact, and the Rust saturating cast `(… ).floor() as usize` sends
  `nan` to `0` and a finite value to the floor of its exact value
  (concrete counterexamples below only use dyadic rationals such as
  `1/2`, `1/4`, `3/4` for which `f32` arithmetic is exact).
* Code that can panic (`unwrap`, arithmetic underflow of `usize` in a
  debug build, division by zero, the `assert_eq!` in `concat_lines`) is
  modelled in the `Option` monad, `none` meaning the panic.
* The `while` loop of `cell_size` has no termination guarantee, so it is
  modelled with explicit fuel; `none` also covers running out of fuel.
  `Grid.render` therefore takes a fuel argument.
-/

set_option maxHeartbeats 1000000

namespace Papergrid

/-- Rust strings, modelled as lists of characters. -/
abbrev Str := List Char

/-- Number of UTF-8 bytes of a string: models Rust `str::len`. -/
def byteLen (s : Str) : ℕ := (s.map Char.utf8Size).sum

/-- Splitting a string at every newline character.  The result is always
nonempty; a trailing newline yields a trailing empty piece. -/
def splitNl : Str → List Str
  | [] => [[]]
  | c :: rest =>
    if c = '\n' then [] :: splitNl rest
    else
      match splitNl rest with
      | [] => [[c]]
      | l :: ls => (c :: l) :: ls

/-- Removing one trailing carriage return, as Rust `str::lines` does for
lines terminated by `\r\n`. -/
def stripCr (l : Str) : Str := if l.getLast? = some '\r' then l.dropLast else l

/-- Model of Rust `str::lines`: split at `\n`, drop a final empty piece
(the optional final line terminator), and strip `\r` from every piece
that was terminated by a newline. -/
def rustLines (s : Str) : List Str :=
  let ps := splitNl s
  (ps.dropLast.map stripCr) ++
    (match ps.getLast? with
     | some [] => []
     | some l => [l]
     | none => [])

/-- Maximum of a list of naturals with default 0: models the Rust idiom
`iter.max().map_or(0, |m| m)`. -/
def maxD0 (l : List ℕ) : ℕ := l.foldr max 0

/-- Model of `Iterator::max` on naturals (`None` on an empty iterator). -/
def optMax (l : List ℕ) : Option ℕ :=
  match l with
  | [] => none
  | a :: rest => some (rest.foldl max a)

/-- Model of `Iterator::min` on naturals (`None` on an empty iterator). -/
def optMin (l : List ℕ) : Option ℕ :=
  match l with
  | [] => none
  | a :: rest => some (rest.foldl min a)

/-- An exact nonnegative rational kept as an unnormalized
numerator/denominator pair.  Every finite `f32` value appearing in the
layout algorithm is a quotient of two `usize` values, represented here
exactly; `val` below gives its value in `ℚ`. -/
structure Frac where
  num : ℕ
  den : ℕ
deriving DecidableEq

/-- The rational value of a fraction. -/
def Frac.val (f : Frac) : ℚ := (f.num : ℚ) / (f.den : ℚ)

/-- Model of the `f32` values flowing through the layout algorithm:
`nan`, positive infinity, or an exact nonnegative rational. -/
inductive F where
  | nan : F
  | inf : F
  | val : Frac → F
deriving DecidableEq

/-- Division of two `usize` values cast to `f32`
(`a as f32 / b as f32`): `0.0/0.0` is `nan`, `a/0.0` with `a > 0` is
`inf`, otherwise the exact rational `a / b`. -/
def fdiv (a b : ℕ) : F :=
  if b = 0 then (if a = 0 then F.nan else F.inf) else F.val ⟨a, b⟩

/-- Multiplication `w as f32 * portion` for a `usize` `w`: the exact
rational `w * num / den`. -/
def fmul (w : ℕ) : F → F
  | F.nan => F.nan
  | F.inf => if w = 0 then F.nan else F.inf
  | F.val q => F.val ⟨w * q.num, q.den⟩

/-- The Rust saturating cast `x.floor() as usize`: `nan` goes to 0,
`inf` saturates; the floor of the nonnegative rational `num / den` is
the natural division `num / den`. -/
def floorCast : F → ℕ
  | F.nan => 0
  | F.inf => 2 ^ 64 - 1
  | F.val q => q.num / q.den

/-- Model of `f32::max`: a `nan` argument is ignored unless both are,
and finite values compare by their exact rational value
(cross multiplication). -/
def fmax : F → F → F
  | F.nan, y => y
  | x, F.nan => x
  | F.inf, _ => F.inf
  | _, F.inf => F.inf
  | F.val a, F.val b => if a.num * b.den < b.num * a.den then F.val b else F.val a

/-! ## The data model (`Grid`, `Cell`, `Border`, `Ident`, `Alignment`) -/

/-- Border glyph strings of a cell (all independently settable strings in
the source, though only `corner` has a public setter). -/
structure Border where
  top : Str
  bottom : Str
  left : Str
  right : Str
  corner : Str
deriving DecidableEq

/-- Per-cell padding, in character/line units. -/
structure Ident where
  top : ℕ
  bottom : ℕ
  left : ℕ
  right : ℕ
deriving DecidableEq

/-- Horizontal alignment of cell content. -/
inductive Alignment where
  | center : Alignment
  | left : Alignment
  | right : Alignment
deriving DecidableEq

/-- A grid cell: content, alignment, border glyphs, padding and the
column-span field (named `span_row` in the source). -/
structure Cell where
  content : Str
  alignment : Alignment
  border : Border
  ident : Ident
  span_row : ℕ
deriving DecidableEq

/-- Default cell, as built by `Cell::new`. -/
def Cell.new : Cell where
  content := []
  alignment := Alignment.center
  border := { top := ['-'], bottom := ['-'], left := ['|'], right := ['|'], corner := ['+'] }
  ident := { top := 0, bottom := 0, left := 0, right := 0 }
  span_row := 0

/-- Setter `Cell::set_content`. -/
def Cell.set_content (c : Cell) (s : Str) : Cell := { c with content := s }

/-- Setter `Cell::set_corner`. -/
def Cell.set_corner (c : Cell) (s : Str) : Cell :=
  { c with border := { c.border with corner := s } }

/-- Setter `Cell::set_alignment`. -/
def Cell.set_alignment (c : Cell) (a : Alignment) : Cell := { c with alignment := a }

/-- Setter `Cell::set_vertical_ident`. -/
def Cell.set_vertical_ident (c : Cell) (size : ℕ) : Cell :=
  { c with ident := { c.ident with top := size, bottom := size } }

/-- Setter `Cell::set_horizontal_ident`. -/
def Cell.set_horizontal_ident (c : Cell) (size : ℕ) : Cell :=
  { c with ident := { c.ident with left := size, right := size } }

/-- Setter `Cell::set_row_span`. -/
def Cell.set_row_span (c : Cell) (size : ℕ) : Cell := { c with span_row := size }

/-- Natural height of a cell: `self.content.lines().count()`. -/
def Cell.height (c : Cell) : ℕ := (rustLines c.content).length

/-- Natural weight of a cell: the byte length of its widest content
line, 0 for empty content
(`self.content.lines().map(|l| l.len()).max().map_or(0, |max| max)`). -/
def Cell.weight (c : Cell) : ℕ := maxD0 ((rustLines c.content).map byteLen)

/-- The grid: dimensions and a row-major cell vector. -/
structure Grid where
  size : ℕ × ℕ
  cells : List Cell
deriving DecidableEq

/-- Constructor `Grid::new`. -/
def Grid.new (rows columns : ℕ) : Grid where
  size := (rows, columns)
  cells := List.replicate (rows * columns) Cell.new

/-- Accessor `Grid::count_rows`. -/
def Grid.count_rows (g : Grid) : ℕ := g.size.1

/-- Accessor `Grid::count_columns`. -/
def Grid.count_columns (g : Grid) : ℕ := g.size.2

/-- Read access at the flat index used by `Grid::cell`
(`self.cells.get_mut(self.count_columns() * i + j).unwrap()`); `none`
models the `unwrap` panic when the flat index is out of bounds. -/
def Grid.cell (g : Grid) (i j : ℕ) : Option Cell :=
  g.cells.get? (g.count_columns * i + j)

/-- Mutation through `Grid::cell`: apply `f` to the cell at the flat
index `count_columns * i + j`; `none` models the `unwrap` panic. -/
def Grid.cellMod (g : Grid) (i j : ℕ) (f : Cell → Cell) : Option Grid :=
  match g.cells.get? (g.count_columns * i + j) with
  | some c => some { g with cells := g.cells.set (g.count_columns * i + j) (f c) }
  | none => none

/-- Row slices of the flat cell vector, as built by the free function
`rows` in the source. -/
def rowsOf (cells : List Cell) (countRows countColumns : ℕ) : List (List Cell) :=
  (List.range countRows).map (fun i => (cells.drop (countColumns * i)).take countColumns)

/-! ## Row Partitioner and Portion Calculator (`row_portions_blocks`) -/

/-- Span pattern of a row: one raw `span_row` value per column position. -/
def spansOf (row : List Cell) : List ℕ := row.map Cell.span_row

/-- One step of the block-building fold in `row_portions_blocks`: extend
the last block when the incoming row's span pattern matches the span
pattern of the block's last row, otherwise open a new block. -/
def pushBlock (blocks : List (List (List ℕ × ℕ))) (item : List ℕ × ℕ) :
    List (List (List ℕ × ℕ)) :=
  match blocks.getLast? with
  | some block =>
    match block.getLast? with
    | some blockRow =>
      if blockRow.1 = item.1 then blocks.dropLast ++ [block ++ [item]]
      else blocks ++ [[item]]
    | none => blocks ++ [[item]]
  | none => blocks ++ [[item]]

/-- The `(spans, row_index)` stream produced by
`rows.map(spans).zip(0..rows.len())`, starting at index `k`. -/
def spanItems (k : ℕ) : List (List Cell) → List (List ℕ × ℕ)
  | [] => []
  | r :: rs => (spansOf r, k) :: spanItems (k + 1) rs

/-- The block decomposition computed by the fold in
`row_portions_blocks`: maximal runs of consecutive rows with identical
span patterns, each block materialised back into row slices. -/
def blocksOf (rows : List (List Cell)) : List (List (List Cell)) :=
  ((spanItems 0 rows).foldl pushBlock []).map
    (fun block => block.map (fun p => rows.getD p.2 []))

/-- Per-cell weights of a block (`columns_weight` in the source). -/
def blockColumnsWeight (block : List (List Cell)) : List (List ℕ) :=
  block.map (fun r => r.map Cell.weight)

/-- Reference weight of a block: the maximum over the block's rows of
the sum of all the row's cell weights (`weight` in the source). -/
def blockRefWeight (block : List (List Cell)) : ℕ :=
  maxD0 (block.map (fun r => (r.map Cell.weight).sum))

/-- Raw per-row portions of a block
(`columns_weight[row_index][cell_index] as f32 / weight as f32`). -/
def blockRowPortions (block : List (List Cell)) : List (List F) :=
  block.enum.map (fun p =>
    p.2.enum.map (fun q =>
      fdiv (((blockColumnsWeight block).getD p.1 []).getD q.1 0) (blockRefWeight block)))

/-- Positionwise maximum of the block's row portions (`max_portions`).
The source folds starting from `row_portions[0].clone()` and mutates the
accumulator at each index of the incoming row; every row of a block has
the same length, so this is `List.zipWith fmax`. -/
def blockMaxPortions (block : List (List Cell)) : List F :=
  ((blockRowPortions block).drop 1).foldl
    (fun acc row => List.zipWith fmax acc row)
    ((blockRowPortions block).headD [])

/-- The full `row_portions_blocks`: for every row, the positionwise
maximum portion vector of its block. -/
def rowPortionsBlocks (rows : List (List Cell)) : List (List F) :=
  ((blocksOf rows).map (fun block =>
    List.replicate block.length (blockMaxPortions block))).flatten

/-! ## Row-Weight Solver (`cell_size`, `measure_cell_size`, `is_rows_size`) -/

/-- Initial width estimate: the maximum over all rows of the sum of the
row's raw cell weights (`columns_weight` in `fmt`). -/
def columnsWeightOf (rows : List (List Cell)) : ℕ :=
  maxD0 (rows.map (fun r => (r.map Cell.weight).sum))

/-- Per-row heights
(`row.iter().map(|cell| cell.height()).max().unwrap()`); `none` models
the `unwrap` panic on a row with no cells. -/
def rowsHeightOf (rows : List (List Cell)) : Option (List ℕ) :=
  rows.mapM (fun row => optMax (row.map Cell.height))

/-- `measure_cell_size`: width `floor(weight as f32 * portion) as usize`
and the row's height, for every cell position. -/
def measureCellSize (rows : List (List Cell)) (portions : List (List F))
    (rowsHeight : List ℕ) (weight : ℕ) : List (List (ℕ × ℕ)) :=
  rows.enum.map (fun p =>
    (List.range p.2.length).map (fun cellIndex =>
      (floorCast (fmul weight ((portions.getD p.1 []).getD cellIndex F.nan)),
       rowsHeight.getD p.1 0)))

/-- `row_weight`: sum of the entries plus `len - 1` separators.  On an
empty slice `row.len() - 1` underflows `usize` and panics (debug
build), modelled by `none`. -/
def rowWeight (row : List ℕ) : Option ℕ :=
  match row with
  | [] => none
  | _ => some (row.sum + row.length - 1)

/-- `is_rows_size`: compute each row's total over its positive widths
and compare the minimum with the maximum.  The `weight` argument is
unused in the source as well. -/
def isRowsSize (sizes : List (List (ℕ × ℕ))) (weight : ℕ) : Option Bool := do
  let _ := weight
  let rowWeights ← sizes.mapM (fun row =>
    rowWeight ((row.map Prod.fst).filter (fun w => 0 < w)))
  pure (decide (optMin rowWeights = optMax rowWeights))

/-- The width-search loop of `cell_size`, with explicit fuel; each unit
of fuel allows one evaluation of `is_rows_size`. -/
def cellSizeLoop (fuel : ℕ) (rows : List (List Cell)) (portions : List (List F))
    (rowsHeight : List ℕ) (weight : ℕ) : Option (List (List (ℕ × ℕ))) :=
  match fuel with
  | 0 => none
  | fuel + 1 => do
    let sizes := measureCellSize rows portions rowsHeight weight
    let ok ← isRowsSize sizes weight
    if ok then pure sizes
    else cellSizeLoop fuel rows portions rowsHeight (weight + 1)

/-- `cell_size`: compute the row heights, then run the width search from
the initial weight. -/
def cellSize (fuel : ℕ) (rows : List (List Cell)) (portions : List (List F))
    (weight : ℕ) : Option (List (List (ℕ × ℕ))) := do
  let rowsHeight ← rowsHeightOf rows
  cellSizeLoop fuel rows portions rowsHeight weight

/-! ## Cell Formatter (`CellFormatter`) -/

/-- The `CellFormatter` builder: border/corner draw flags (`Option<()>`
in the source, modelled as `Bool`), assigned weight and height. -/
structure Formatter where
  cell : Cell
  left : Bool
  right : Bool
  top : Bool
  bottom : Bool
  left_connection : Bool
  right_connection : Bool
  weight : ℕ
  height : ℕ
deriving DecidableEq

/-- `CellFormatter::new`. -/
def Formatter.new (c : Cell) : Formatter where
  cell := c
  left := false
  right := false
  top := false
  bottom := false
  left_connection := false
  right_connection := false
  weight := 0
  height := 0

/-- `CellFormatter::boxed`. -/
def Formatter.boxed (f : Formatter) : Formatter :=
  { f with left := true, right := true, top := true, bottom := true,
           left_connection := true, right_connection := true }

/-- `CellFormatter::un_left`. -/
def Formatter.unLeft (f : Formatter) : Formatter := { f with left := false }

/-- `CellFormatter::un_left_connection`. -/
def Formatter.unLeftConnection (f : Formatter) : Formatter :=
  { f with left_connection := false }

/-- `CellFormatter::un_top`. -/
def Formatter.unTop (f : Formatter) : Formatter := { f with top := false }

/-- `CellFormatter::weight` (the builder setter). -/
def Formatter.withWeight (f : Formatter) (w : ℕ) : Formatter := { f with weight := w }

/-- `CellFormatter::height` (the builder setter). -/
def Formatter.withHeight (f : Formatter) (h : ℕ) : Formatter := { f with height := h }

/-- `CellFormatter::full_weight`. -/
def Formatter.fullWeight (f : Formatter) : ℕ :=
  f.weight + f.cell.ident.left + f.cell.ident.right

/-- Horizontal alignment within `len` characters, as Rust `format!`
padding: no truncation of longer strings, center puts the extra space on
the right. -/
def alignStr (l : Str) (a : Alignment) (len : ℕ) : Str :=
  if len ≤ l.length then l
  else
    match a with
    | Alignment.center =>
        List.replicate ((len - l.length) / 2) ' ' ++ l ++
          List.replicate (len - l.length - (len - l.length) / 2) ' '
    | Alignment.left => l ++ List.replicate (len - l.length) ' '
    | Alignment.right => List.replicate (len - l.length) ' ' ++ l

/-- Model of `str::repeat`: the whole string repeated `n` times. -/
def repeatStr (s : Str) (n : ℕ) : Str := (List.replicate n s).flatten

/-- Number of `'\n'` characters in a string
(`content.chars().filter(|&c| c == '\n').count()`). -/
def countNl (s : Str) : ℕ := (s.filter (fun c => c = '\n')).length

/-- The height-padding step of `CellFormatter::format`: append newlines
when the assigned height exceeds the newline count. -/
def padTo (content : Str) (height : ℕ) : Str :=
  if countNl content < height then
    content ++ List.replicate (height - countNl content) '\n'
  else content

/-- Join a list of lines with newlines, modelling `lines.join` with a
newline separator. -/
def joinNl : List Str → Str
  | [] => []
  | [l] => l
  | l :: ls => l ++ '\n' :: joinNl ls

/-- The list of output lines assembled by `CellFormatter::format`
before the final `join("\n")`. -/
def Formatter.formatLines (f : Formatter) : List Str :=
  let c := f.cell
  let weight :=
    if f.weight = 0 then maxD0 ((rustLines c.content).map List.length) else f.weight
  let content := padTo c.content f.height
  let content := content ++ List.replicate c.ident.bottom '\n'
  let content := List.replicate c.ident.top '\n' ++ content
  let leftIdent := List.replicate c.ident.left ' '
  let rightIdent := List.replicate c.ident.right ' '
  let leftBorder := if f.left then c.border.left else []
  let rightBorder := if f.right then c.border.right else []
  let lines := (rustLines content).map (fun l =>
    leftBorder ++ (leftIdent ++ alignStr l c.alignment weight ++ rightIdent) ++ rightBorder)
  let lhs := if f.left_connection then c.border.corner else []
  let rhs := if f.right_connection then c.border.corner else []
  let weightTotal := weight + c.ident.left + c.ident.right
  let lines :=
    if f.top then (lhs ++ repeatStr c.border.top weightTotal ++ rhs) :: lines else lines
  if f.bottom then lines ++ [lhs ++ repeatStr c.border.bottom weightTotal ++ rhs]
  else lines

/-- `CellFormatter::format`. -/
def Formatter.format (f : Formatter) : Str := joinNl f.formatLines

/-! ## Renderer (`impl Display for Grid`, `adjust`, `concat_row`) -/

/-- The formatter construction for one row inside `fmt`: skip cells with
assigned width 0; box every kept cell; drop the left border and left
corner except at column 0; drop the top border except in row 0. -/
def buildRowFormatters (rowIndex : ℕ) (row : List Cell) (rowSizes : List (ℕ × ℕ)) :
    List Formatter :=
  row.enum.filterMap (fun p =>
    if (rowSizes.getD p.1 (0, 0)).1 = 0 then none
    else
      let f := ((Formatter.new p.2).withWeight
        (rowSizes.getD p.1 (0, 0)).1).withHeight (rowSizes.getD p.1 (0, 0)).2
      let f := f.boxed
      let f := if p.1 ≠ 0 then f.unLeft.unLeftConnection else f
      let f := if rowIndex ≠ 0 then f.unTop else f
      some f)

/-- The full formatter matrix built inside `fmt`. -/
def buildFormatters (rows : List (List Cell)) (sizes : List (List (ℕ × ℕ))) :
    List (List Formatter) :=
  rows.enum.map (fun p => buildRowFormatters p.1 p.2 (sizes.getD p.1 []))

/-- The target width of the `adjust` pass: the maximum over all rows of
(sum of full weights plus `len - 1`), with `map_or(0)` on no rows.
`r.len() - 1` underflows on an empty formatter row (`none`). -/
def adjustTarget (rows : List (List Formatter)) : Option ℕ := do
  let totals ← rows.mapM (fun r =>
    match r with
    | [] => none
    | _ => some ((r.map Formatter.fullWeight).sum + r.length - 1))
  pure (maxD0 totals)

/-- The `adjust` pass: distribute each row's shortfall against the
target evenly over the row's cells by integer division, adding the
quotient to every cell's width.  `none` models the `usize` underflow of
`weight - row_weight` and the division by zero on an empty row. -/
def adjust (rows : List (List Formatter)) : Option (List (List Formatter)) := do
  let target ← adjustTarget rows
  rows.mapM (fun r => do
    let rw := (r.map Formatter.fullWeight).sum
    if target < rw then none
    else if r.length = 0 then none
    else
      pure (r.map (fun f => f.withWeight (f.weight + (target - rw) / r.length))))

/-- `concat_lines`: `none` models the `assert_eq!` on differing line
counts; otherwise concatenate the two blocks line by line. -/
def concatLines (a b : Str) : Option Str :=
  if (rustLines a).length = (rustLines b).length then
    some (joinNl (List.zipWith (fun x y => x ++ y) (rustLines a) (rustLines b)))
  else none

/-- `concat_row`: fold `concat_lines` over the row's formatted blocks,
the empty row giving the empty string. -/
def concatRow (row : List Str) : Option Str :=
  match row with
  | [] => some []
  | s :: rest => rest.foldlM concatLines s

/-- The whole `Display` implementation (`Grid::fmt`), with `writeln!`
appending a newline after every row.  `none` is any panic on the way or
exhaustion of the width-search fuel. -/
def Grid.render (fuel : ℕ) (g : Grid) : Option Str := do
  let rows := rowsOf g.cells g.size.1 g.size.2
  let columnsWeight := columnsWeightOf rows
  let portions := rowPortionsBlocks rows
  let sizes ← cellSize fuel rows portions columnsWeight
  let grid := buildFormatters rows sizes
  let grid ← adjust grid
  let rowStrings ← grid.mapM (fun r => concatRow (r.map Formatter.format))
  pure (rowStrings.foldr (fun s acc => s ++ '\n' :: acc) [])

/-! ## Basic lemmas about `splitNl`, `rustLines`, `joinNl` -/

@[simp] theorem splitNl_nil : splitNl [] = [[]] := rfl

theorem mem_of_getLast?_eq {α : Type} {l : List α} {a : α} (h : l.getLast? = some a) :
    a ∈ l := by
  have hne : l ≠ [] := by
    intro h0
    subst h0
    simp at h
  have hq := List.getLast?_eq_getLast l hne
  rw [hq] at h
  rw [← Option.some.inj h]
  exact List.getLast_mem hne

theorem splitNl_ne_nil (s : Str) : splitNl s ≠ [] := by
  cases s with
  | nil => simp [splitNl]
  | cons c rest =>
    simp only [splitNl]
    by_cases h : c = '\n'
    · simp [h]
    · simp only [h, if_false]
      cases hs : splitNl rest <;> simp

theorem splitNl_cons_nl (rest : Str) : splitNl ('\n' :: rest) = [] :: splitNl rest := by
  simp [splitNl]

theorem splitNl_cons_ne {c : Char} (h : c ≠ '\n') (l : Str) (ls : List Str) (rest : Str)
    (hs : splitNl rest = l :: ls) : splitNl (c :: rest) = (c :: l) :: ls := by
  simp [splitNl, h, hs]

theorem splitNl_append_nl (a b : Str) : splitNl (a ++ '\n' :: b) = splitNl a ++ splitNl b := by
  induction a with
  | nil => simp [splitNl_cons_nl]
  | cons c a ih =>
    by_cases h : c = '\n'
    · subst h
      simp [splitNl_cons_nl, ih]
    · obtain ⟨l, ls, hl⟩ : ∃ l ls, splitNl (a ++ '\n' :: b) = l :: ls := by
        cases hs : splitNl (a ++ '\n' :: b) with
        | nil => exact absurd hs (splitNl_ne_nil _)
        | cons l ls => exact ⟨l, ls, rfl⟩
      obtain ⟨l', ls', hl'⟩ : ∃ l ls, splitNl a = l :: ls := by
        cases hs : splitNl a with
        | nil => exact absurd hs (splitNl_ne_nil _)
        | cons l ls => exact ⟨l, ls, rfl⟩
      rw [List.cons_append, splitNl_cons_ne h _ _ _ hl, splitNl_cons_ne h _ _ _ hl']
      rw [hl', hl] at ih
      cases ih
      simp

theorem splitNl_of_not_mem {s : Str} (h : '\n' ∉ s) : splitNl s = [s] := by
  induction s with
  | nil => rfl
  | cons c rest ih =>
    simp only [List.mem_cons, not_or] at h
    exact splitNl_cons_ne (fun hc => h.1 hc.symm) rest [] rest (ih h.2)

theorem not_mem_of_mem_splitNl {s l : Str} (h : l ∈ splitNl s) : '\n' ∉ l := by
  induction s generalizing l with
  | nil => simp only [splitNl_nil, List.mem_singleton] at h; simp [h]
  | cons c rest ih =>
    by_cases hc : c = '\n'
    · subst hc
      rw [splitNl_cons_nl] at h
      rcases List.mem_cons.mp h with h | h
      · simp [h]
      · exact ih h
    · obtain ⟨l', ls', hl'⟩ : ∃ l' ls', splitNl rest = l' :: ls' := by
        cases hs : splitNl rest with
        | nil => exact absurd hs (splitNl_ne_nil _)
        | cons a b => exact ⟨a, b, rfl⟩
      rw [splitNl_cons_ne hc _ _ _ hl'] at h
      rcases List.mem_cons.mp h with h | h
      · subst h
        intro hm
        rcases List.mem_cons.mp hm with hm | hm
        · exact hc hm.symm
        · exact ih (by rw [hl']; exact List.mem_cons_self _ _) hm
      · exact ih (by rw [hl']; exact List.mem_cons_of_mem _ h)

theorem splitNl_length (s : Str) : (splitNl s).length = countNl s + 1 := by
  induction s with
  | nil => simp [countNl]
  | cons c rest ih =>
    by_cases hc : c = '\n'
    · subst hc
      simp [splitNl_cons_nl, countNl, List.filter] at ih ⊢
      omega
    · obtain ⟨l', ls', hl'⟩ : ∃ l' ls', splitNl rest = l' :: ls' := by
        cases hs : splitNl rest with
        | nil => exact absurd hs (splitNl_ne_nil _)
        | cons a b => exact ⟨a, b, rfl⟩
      rw [splitNl_cons_ne hc _ _ _ hl']
      rw [hl'] at ih
      simpa [countNl, List.filter, hc] using ih

theorem splitNl_replicate_append (m : ℕ) (s : Str) :
    splitNl (List.replicate m '\n' ++ s) = List.replicate m [] ++ splitNl s := by
  induction m with
  | zero => simp
  | succ m ih =>
    rw [List.replicate_succ, List.cons_append, splitNl_cons_nl, ih, List.replicate_succ]
    rfl

theorem splitNl_append_replicate (s : Str) (m : ℕ) :
    splitNl (s ++ List.replicate m '\n') = splitNl s ++ List.replicate m [] := by
  cases m with
  | zero => simp
  | succ m =>
    have h1 : List.replicate (m + 1) '\n' = '\n' :: List.replicate m '\n' := rfl
    rw [h1, splitNl_append_nl]
    have h2 := splitNl_replicate_append m []
    simp only [List.append_nil, splitNl_nil] at h2
    rw [h2, List.replicate_succ']

@[simp] theorem joinNl_nil : joinNl [] = [] := rfl

@[simp] theorem joinNl_single (l : Str) : joinNl [l] = l := rfl

theorem joinNl_cons₂ (l a : Str) (ls : List Str) :
    joinNl (l :: a :: ls) = l ++ '\n' :: joinNl (a :: ls) := rfl

theorem splitNl_joinNl {ls : List Str} (hne : ls ≠ []) (hnl : ∀ l ∈ ls, '\n' ∉ l) :
    splitNl (joinNl ls) = ls := by
  induction ls with
  | nil => exact absurd rfl hne
  | cons l rest ih =>
    cases rest with
    | nil => simpa using splitNl_of_not_mem (hnl l (List.mem_singleton_self l))
    | cons a t =>
      rw [joinNl_cons₂, splitNl_append_nl,
        splitNl_of_not_mem (hnl l (List.mem_cons_self _ _)),
        ih (by simp) (fun x hx => hnl x (List.mem_cons_of_mem _ hx))]
      rfl

theorem stripCr_eq_self {l : Str} (h : l.getLast? ≠ some '\r') : stripCr l = l := by
  unfold stripCr
  by_cases hc : l.getLast? = some '\r'
  · exact absurd hc h
  · simp [hc]

theorem rustLines_eq_of_last_empty {s : Str} (h : (splitNl s).getLast? = some []) :
    rustLines s = (splitNl s).dropLast.map stripCr := by
  unfold rustLines
  simp only [h, List.append_nil]

theorem rustLines_eq_of_last_cons {s : Str} {c : Char} {t : Str}
    (h : (splitNl s).getLast? = some (c :: t)) :
    rustLines s = (splitNl s).dropLast.map stripCr ++ [c :: t] := by
  unfold rustLines
  simp only [h]

theorem rustLines_joinNl {ls : List Str} (hne : ls ≠ [])
    (hnl : ∀ l ∈ ls, '\n' ∉ l) (hcr : ∀ l ∈ ls, l.getLast? ≠ some '\r')
    (hlast : ls.getLast? ≠ some []) : rustLines (joinNl ls) = ls := by
  have hsplit := splitNl_joinNl hne hnl
  obtain ⟨last, hl⟩ : ∃ last, ls.getLast? = some last := by
    cases hg : ls.getLast? with
    | none => exact absurd (List.getLast?_eq_none_iff.mp hg) hne
    | some x => exact ⟨x, rfl⟩
  cases last with
  | nil => exact absurd hl hlast
  | cons c t =>
    rw [rustLines_eq_of_last_cons (by rw [hsplit]; exact hl), hsplit]
    have hmap : ls.dropLast.map stripCr = ls.dropLast := by
      have hid : ∀ x ∈ ls.dropLast, stripCr x = x := fun x hx =>
        stripCr_eq_self (hcr x (List.dropLast_subset ls hx))
      calc ls.dropLast.map stripCr = ls.dropLast.map id := List.map_congr_left hid
        _ = ls.dropLast := List.map_id _
    have hgl : ls.getLast hne = c :: t := by
      have hq := List.getLast?_eq_getLast ls hne
      rw [hq] at hl
      exact Option.some.inj hl
    rw [hmap, ← hgl, List.dropLast_append_getLast hne]

theorem rustLines_joinNl_length {ls : List Str} (hne : ls ≠ [])
    (hnl : ∀ l ∈ ls, '\n' ∉ l) (hlast : ls.getLast? ≠ some []) :
    (rustLines (joinNl ls)).length = ls.length := by
  have hsplit := splitNl_joinNl hne hnl
  obtain ⟨last, hl⟩ : ∃ last, ls.getLast? = some last := by
    cases hg : ls.getLast? with
    | none => exact absurd (List.getLast?_eq_none_iff.mp hg) hne
    | some x => exact ⟨x, rfl⟩
  cases last with
  | nil => exact absurd hl hlast
  | cons c t =>
    rw [rustLines_eq_of_last_cons (by rw [hsplit]; exact hl), hsplit]
    simp [List.length_dropLast]
    have : 1 ≤ ls.length := List.length_pos.mpr hne
    omega

/-! ## Lemmas about `padTo` (the height-padding step of the formatter) -/

theorem countNl_le_rustLines_length (s : Str) : countNl s ≤ (rustLines s).length := by
  obtain ⟨last, hl⟩ : ∃ last, (splitNl s).getLast? = some last := by
    cases hg : (splitNl s).getLast? with
    | none => exact absurd (List.getLast?_eq_none_iff.mp hg) (splitNl_ne_nil s)
    | some x => exact ⟨x, rfl⟩
  have hlen := splitNl_length s
  have hpos : 1 ≤ (splitNl s).length := List.length_pos.mpr (splitNl_ne_nil s)
  cases last with
  | nil =>
    rw [rustLines_eq_of_last_empty hl]
    simp [List.length_dropLast]
    omega
  | cons c t =>
    rw [rustLines_eq_of_last_cons hl]
    simp [List.length_dropLast]
    omega

theorem rustLines_length_le (s : Str) : (rustLines s).length ≤ countNl s + 1 := by
  obtain ⟨last, hl⟩ : ∃ last, (splitNl s).getLast? = some last := by
    cases hg : (splitNl s).getLast? with
    | none => exact absurd (List.getLast?_eq_none_iff.mp hg) (splitNl_ne_nil s)
    | some x => exact ⟨x, rfl⟩
  have hlen := splitNl_length s
  have hpos : 1 ≤ (splitNl s).length := List.length_pos.mpr (splitNl_ne_nil s)
  cases last with
  | nil =>
    rw [rustLines_eq_of_last_empty hl]
    simp [List.length_dropLast]
    omega
  | cons c t =>
    rw [rustLines_eq_of_last_cons hl]
    simp [List.length_dropLast]
    omega

theorem padTo_eq_append (s : Str) (h : ℕ) :
    ∃ m, padTo s h = s ++ List.replicate m '\n' := by
  unfold padTo
  by_cases hc : countNl s < h
  · exact ⟨h - countNl s, by simp [hc]⟩
  · exact ⟨0, by simp [hc]⟩

theorem rustLines_padTo_length {s : Str} {h : ℕ} (hle : (rustLines s).length ≤ h) :
    (rustLines (padTo s h)).length = h := by
  unfold padTo
  by_cases hc : countNl s < h
  · simp only [hc, if_true]
    have hm : 1 ≤ h - countNl s := by omega
    have hsplit := splitNl_append_replicate s (h - countNl s)
    have hlast : (splitNl (s ++ List.replicate (h - countNl s) '\n')).getLast? = some [] := by
      rw [hsplit]
      obtain ⟨m, hmm⟩ : ∃ m, h - countNl s = m + 1 := ⟨h - countNl s - 1, by omega⟩
      rw [hmm, List.replicate_succ', ← List.append_assoc]
      exact List.getLast?_concat _
    rw [rustLines_eq_of_last_empty hlast, List.length_map, List.length_dropLast, hsplit]
    have := splitNl_length s
    simp only [List.length_append, List.length_replicate, this]
    omega
  · simp only [hc, if_false]
    have h1 := countNl_le_rustLines_length s
    omega

/-! ## Lemmas about `maxD0`, `optMax`, `optMin` -/

@[simp] theorem maxD0_nil : maxD0 [] = 0 := rfl

@[simp] theorem maxD0_cons (a : ℕ) (l : List ℕ) : maxD0 (a :: l) = max a (maxD0 l) := rfl

theorem le_maxD0_of_mem {a : ℕ} {l : List ℕ} (h : a ∈ l) : a ≤ maxD0 l := by
  induction l with
  | nil => cases h
  | cons b t ih =>
    rcases List.mem_cons.mp h with h | h
    · subst h; simp
    · exact le_trans (ih h) (by simp)

theorem maxD0_le {l : List ℕ} {n : ℕ} (h : ∀ a ∈ l, a ≤ n) : maxD0 l ≤ n := by
  induction l with
  | nil => simp
  | cons b t ih =>
    simp only [maxD0_cons, max_le_iff]
    exact ⟨h b (List.mem_cons_self _ _), ih (fun a ha => h a (List.mem_cons_of_mem _ ha))⟩

theorem foldl_max_eq (a : ℕ) (l : List ℕ) : l.foldl max a = max a (maxD0 l) := by
  induction l generalizing a with
  | nil => simp
  | cons b t ih =>
    simp only [List.foldl_cons, maxD0_cons, ih (max a b)]
    omega

theorem optMax_eq_some {l : List ℕ} (h : l ≠ []) : optMax l = some (maxD0 l) := by
  cases l with
  | nil => exact absurd rfl h
  | cons a t => simp [optMax, foldl_max_eq]

theorem foldl_min_le (a : ℕ) (l : List ℕ) : l.foldl min a ≤ a := by
  induction l generalizing a with
  | nil => simp
  | cons b t ih => exact le_trans (ih (min a b)) (by omega)

theorem foldl_min_le_of_mem {a x : ℕ} {l : List ℕ} (h : x ∈ l) : l.foldl min a ≤ x := by
  induction l generalizing a with
  | nil => cases h
  | cons b t ih =>
    rcases List.mem_cons.mp h with h | h
    · subst h
      rw [List.foldl_cons]
      exact le_trans (foldl_min_le _ _) (min_le_right _ _)
    · exact ih h

theorem le_foldl_max_of_mem {a x : ℕ} {l : List ℕ} (h : x ∈ l) : x ≤ l.foldl max a := by
  induction l generalizing a with
  | nil => cases h
  | cons b t ih =>
    rcases List.mem_cons.mp h with h | h
    · subst h
      rw [List.foldl_cons, foldl_max_eq]
      exact le_max_of_le_left (le_max_right _ _)
    · exact ih h

/-- When the iterator minimum equals the iterator maximum, every two
elements of the list are equal (the convergence test of
`is_rows_size`). -/
theorem all_eq_of_optMin_eq_optMax {l : List ℕ} (h : optMin l = optMax l) :
    ∀ a ∈ l, ∀ b ∈ l, a = b := by
  intro a ha b hb
  cases l with
  | nil => cases ha
  | cons c t =>
    simp only [optMin, optMax, Option.some.injEq] at h
    have h1 : t.foldl min c ≤ a := by
      rcases List.mem_cons.mp ha with hq | hq
      · subst hq; exact foldl_min_le _ _
      · exact foldl_min_le_of_mem hq
    have h2 : a ≤ t.foldl max c := by
      rcases List.mem_cons.mp ha with hq | hq
      · subst hq
        rw [foldl_max_eq]
        exact le_max_left _ _
      · exact le_foldl_max_of_mem hq
    have h3 : t.foldl min c ≤ b := by
      rcases List.mem_cons.mp hb with hq | hq
      · subst hq; exact foldl_min_le _ _
      · exact foldl_min_le_of_mem hq
    have h4 : b ≤ t.foldl max c := by
      rcases List.mem_cons.mp hb with hq | hq
      · subst hq
        rw [foldl_max_eq]
        exact le_max_left _ _
      · exact le_foldl_max_of_mem hq
    omega

/-! ## Counting and bounding the lines of padded content -/

theorem countNl_append (a b : Str) : countNl (a ++ b) = countNl a + countNl b := by
  simp [countNl]

theorem countNl_replicate_nl (m : ℕ) : countNl (List.replicate m '\n') = m := by
  simp [countNl, List.filter_replicate]

theorem countNl_padTo {s : Str} {h : ℕ} (hle : (rustLines s).length ≤ h) :
    countNl (padTo s h) = h := by
  unfold padTo
  by_cases hc : countNl s < h
  · simp [hc, countNl_append, countNl_replicate_nl]
    omega
  · simp only [hc, if_false]
    have := countNl_le_rustLines_length s
    omega

theorem rustLines_append_nls (s : Str) {m : ℕ} (hm : 1 ≤ m) :
    (rustLines (s ++ List.replicate m '\n')).length = countNl s + m := by
  have hsplit := splitNl_append_replicate s m
  have hlast : (splitNl (s ++ List.replicate m '\n')).getLast? = some [] := by
    rw [hsplit]
    obtain ⟨k, hk⟩ : ∃ k, m = k + 1 := ⟨m - 1, by omega⟩
    rw [hk, List.replicate_succ', ← List.append_assoc]
    exact List.getLast?_concat _
  rw [rustLines_eq_of_last_empty hlast, List.length_map, List.length_dropLast, hsplit]
  simp [splitNl_length]

theorem rustLines_prepend_nls (it : ℕ) (s : Str) :
    rustLines (List.replicate it '\n' ++ s) = List.replicate it [] ++ rustLines s := by
  have hsplit := splitNl_replicate_append it s
  obtain ⟨last, hl⟩ : ∃ last, (splitNl s).getLast? = some last := by
    cases hg : (splitNl s).getLast? with
    | none => exact absurd (List.getLast?_eq_none_iff.mp hg) (splitNl_ne_nil s)
    | some x => exact ⟨x, rfl⟩
  have hlast : (splitNl (List.replicate it '\n' ++ s)).getLast? = some last := by
    rw [hsplit, List.getLast?_append]
    simp [hl]
  have hdl : (splitNl (List.replicate it '\n' ++ s)).dropLast =
      List.replicate it [] ++ (splitNl s).dropLast := by
    rw [hsplit, List.dropLast_append_of_ne_nil _ (splitNl_ne_nil s)]
  cases last with
  | nil =>
    rw [rustLines_eq_of_last_empty hlast, rustLines_eq_of_last_empty hl, hdl]
    simp [stripCr]
  | cons c t =>
    rw [rustLines_eq_of_last_cons hlast, rustLines_eq_of_last_cons hl, hdl]
    simp [stripCr]

/-- The total line count of the content block assembled by
`CellFormatter::format`: top padding, exactly `height` content lines,
bottom padding. -/
theorem content_block_length {s : Str} {h : ℕ} (hle : (rustLines s).length ≤ h)
    (it ib : ℕ) :
    (rustLines (List.replicate it '\n' ++ (padTo s h ++ List.replicate ib '\n'))).length =
      it + h + ib := by
  rw [rustLines_prepend_nls]
  simp only [List.length_append, List.length_replicate]
  by_cases hb : 1 ≤ ib
  · rw [rustLines_append_nls _ hb, countNl_padTo hle]
    omega
  · have hb0 : ib = 0 := by omega
    subst hb0
    simp only [List.replicate_zero, List.append_nil]
    rw [rustLines_padTo_length hle]
    omega

/-! ## Byte lengths, alignment and line membership bounds -/

theorem length_le_byteLen (l : Str) : l.length ≤ byteLen l := by
  induction l with
  | nil => simp [byteLen]
  | cons c t ih =>
    have hc : 1 ≤ c.utf8Size := Char.utf8Size_pos c
    simp only [byteLen, List.map_cons, List.sum_cons, List.length_cons]
    simp only [byteLen] at ih
    omega

theorem byteLen_append (a b : Str) : byteLen (a ++ b) = byteLen a + byteLen b := by
  simp [byteLen]

theorem byteLen_dropLast_le (l : Str) : byteLen l.dropLast ≤ byteLen l := by
  by_cases h : l = []
  · subst h
    exact le_refl _
  · conv_rhs => rw [← List.dropLast_append_getLast h]
    rw [byteLen_append]
    omega

theorem byteLen_stripCr_le (l : Str) : byteLen (stripCr l) ≤ byteLen l := by
  unfold stripCr
  by_cases hc : l.getLast? = some '\r'
  · simp only [hc, if_true]
    exact byteLen_dropLast_le l
  · simp [hc]

theorem noNl_stripCr {l : Str} (h : '\n' ∉ l) : '\n' ∉ stripCr l := by
  unfold stripCr
  by_cases hc : l.getLast? = some '\r'
  · simp only [hc, if_true]
    exact fun hm => h (List.dropLast_subset l hm)
  · simpa [hc] using h

theorem not_mem_of_mem_rustLines {s l : Str} (h : l ∈ rustLines s) : '\n' ∉ l := by
  obtain ⟨last, hl⟩ : ∃ last, (splitNl s).getLast? = some last := by
    cases hg : (splitNl s).getLast? with
    | none => exact absurd (List.getLast?_eq_none_iff.mp hg) (splitNl_ne_nil s)
    | some x => exact ⟨x, rfl⟩
  have hmem_dl : ∀ x ∈ (splitNl s).dropLast.map stripCr, '\n' ∉ x := by
    intro x hx
    obtain ⟨p, hp, hp2⟩ := List.mem_map.mp hx
    subst hp2
    exact noNl_stripCr (not_mem_of_mem_splitNl (List.dropLast_subset _ hp))
  cases last with
  | nil =>
    rw [rustLines_eq_of_last_empty hl] at h
    exact hmem_dl l h
  | cons c t =>
    rw [rustLines_eq_of_last_cons hl] at h
    rcases List.mem_append.mp h with h | h
    · exact hmem_dl l h
    · have : l = c :: t := List.mem_singleton.mp h
      subst this
      have hle := List.getLast?_eq_getLast (splitNl s) (splitNl_ne_nil s)
      rw [hle] at hl
      have := List.getLast_mem (splitNl_ne_nil s)
      rw [Option.some.inj hl] at this
      exact not_mem_of_mem_splitNl this

theorem byteLen_le_of_mem_splitNl_strip {s p : Str} (h : p ∈ splitNl s) :
    byteLen (stripCr p) ≤ maxD0 ((rustLines s).map byteLen) := by
  have hps := (List.dropLast_append_getLast (splitNl_ne_nil s)).symm
  rw [hps] at h
  rcases List.mem_append.mp h with h | h
  · have : stripCr p ∈ rustLines s := by
      obtain ⟨last, hl⟩ : ∃ last, (splitNl s).getLast? = some last := by
        cases hg : (splitNl s).getLast? with
        | none => exact absurd (List.getLast?_eq_none_iff.mp hg) (splitNl_ne_nil s)
        | some x => exact ⟨x, rfl⟩
      have hmem : stripCr p ∈ (splitNl s).dropLast.map stripCr :=
        List.mem_map_of_mem stripCr h
      cases last with
      | nil => rw [rustLines_eq_of_last_empty hl]; exact hmem
      | cons c t =>
        rw [rustLines_eq_of_last_cons hl]
        exact List.mem_append_left _ hmem
    exact le_maxD0_of_mem (List.mem_map_of_mem byteLen this)
  · have hp : p = (splitNl s).getLast (splitNl_ne_nil s) := List.mem_singleton.mp h
    have hl := List.getLast?_eq_getLast (splitNl s) (splitNl_ne_nil s)
    by_cases hpn : p = []
    · subst hpn
      simp [stripCr, byteLen]
    · obtain ⟨c, t, hct⟩ := List.exists_cons_of_ne_nil hpn
      have hmem : p ∈ rustLines s := by
        rw [hct] at hp
        rw [hct, rustLines_eq_of_last_cons (by rw [hl, ← hp])]
        exact List.mem_append_right _ (List.mem_singleton_self _)
      calc byteLen (stripCr p) ≤ byteLen p := byteLen_stripCr_le p
        _ ≤ maxD0 ((rustLines s).map byteLen) :=
          le_maxD0_of_mem (List.mem_map_of_mem byteLen hmem)

theorem byteLen_le_weight_of_mem_padTo {s : Str} {h : ℕ} {l : Str}
    (hm : l ∈ rustLines (padTo s h)) :
    byteLen l ≤ maxD0 ((rustLines s).map byteLen) := by
  obtain ⟨m, hpad⟩ := padTo_eq_append s h
  rw [hpad] at hm
  cases m with
  | zero =>
    simp only [List.replicate_zero, List.append_nil] at hm
    exact le_maxD0_of_mem (List.mem_map_of_mem byteLen hm)
  | succ m =>
    have hsplit := splitNl_append_replicate s (m + 1)
    have hlast : (splitNl (s ++ List.replicate (m + 1) '\n')).getLast? = some [] := by
      rw [hsplit, List.replicate_succ', ← List.append_assoc]
      exact List.getLast?_concat _
    rw [rustLines_eq_of_last_empty hlast, hsplit, List.replicate_succ', ← List.append_assoc,
      List.dropLast_concat] at hm
    obtain ⟨p, hp, hp2⟩ := List.mem_map.mp hm
    subst hp2
    rcases List.mem_append.mp hp with hp | hp
    · exact byteLen_le_of_mem_splitNl_strip hp
    · have : p = [] := (List.mem_replicate.mp hp).2
      subst this
      simp [stripCr, byteLen]

theorem length_le_weight_of_mem_padTo {s : Str} {h : ℕ} {l : Str}
    (hm : l ∈ rustLines (padTo s h)) :
    l.length ≤ maxD0 ((rustLines s).map byteLen) :=
  le_trans (length_le_byteLen l) (byteLen_le_weight_of_mem_padTo hm)

theorem alignStr_length (l : Str) (a : Alignment) (len : ℕ) :
    (alignStr l a len).length = max len l.length := by
  unfold alignStr
  by_cases h : len ≤ l.length
  · rw [if_pos h]
    exact (Nat.max_eq_right h).symm
  · simp only [h, if_false]
    cases a <;> simp <;> omega

theorem noNl_alignStr {l : Str} (h : '\n' ∉ l) (a : Alignment) (len : ℕ) :
    '\n' ∉ alignStr l a len := by
  unfold alignStr
  by_cases hc : len ≤ l.length
  · simpa [hc] using h
  · simp only [hc, if_false]
    have hsp2 : ∀ k, '\n' ∉ List.replicate k ' ' := by
      intro k hm
      have := (List.mem_replicate.mp hm).2
      simp at this
    cases a with
    | center =>
      intro hm
      rcases List.mem_append.mp hm with hm | hm
      · rcases List.mem_append.mp hm with hm | hm
        · exact hsp2 _ hm
        · exact h hm
      · exact hsp2 _ hm
    | left =>
      intro hm
      rcases List.mem_append.mp hm with hm | hm
      · exact h hm
      · exact hsp2 _ hm
    | right =>
      intro hm
      rcases List.mem_append.mp hm with hm | hm
      · exact hsp2 _ hm
      · exact h hm

/-! ## Maximal runs: the specification-side view of the block fold -/

/-- Grouping of consecutive items into maximal runs of equal keys,
carried out with an explicit current run (the clean recursive
counterpart of the `fold` in `row_portions_blocks`). -/
def runsCont {α β : Type} [DecidableEq β] (key : α → β) (cur : List α) :
    List α → List (List α)
  | [] => [cur]
  | a :: rest =>
    if (cur.getLast?).map key = some (key a) then runsCont key (cur ++ [a]) rest
    else cur :: runsCont key [a] rest

/-- Maximal runs of consecutive items with equal keys. -/
def runsBy {α β : Type} [DecidableEq β] (key : α → β) : List α → List (List α)
  | [] => []
  | a :: rest => runsCont key [a] rest

theorem runsCont_nil {α β : Type} [DecidableEq β] (key : α → β) (cur : List α) :
    runsCont key cur [] = [cur] := rfl

theorem runsCont_cons {α β : Type} [DecidableEq β] (key : α → β) (cur : List α)
    (a : α) (rest : List α) :
    runsCont key cur (a :: rest) =
      if (cur.getLast?).map key = some (key a) then runsCont key (cur ++ [a]) rest
      else cur :: runsCont key [a] rest := rfl

theorem foldl_pushBlock_eq (items : List (List ℕ × ℕ)) :
    ∀ (B : List (List (List ℕ × ℕ))) (cur : List (List ℕ × ℕ)), cur ≠ [] →
      items.foldl pushBlock (B ++ [cur]) = B ++ runsCont Prod.fst cur items := by
  induction items with
  | nil =>
    intro B cur hcur
    simp [runsCont]
  | cons i rest ih =>
    intro B cur hcur
    obtain ⟨l, hl⟩ : ∃ l, cur.getLast? = some l := by
      cases hg : cur.getLast? with
      | none => exact absurd (List.getLast?_eq_none_iff.mp hg) hcur
      | some x => exact ⟨x, rfl⟩
    have hpush : pushBlock (B ++ [cur]) i =
        if l.1 = i.1 then B ++ [cur ++ [i]] else (B ++ [cur]) ++ [[i]] := by
      unfold pushBlock
      rw [List.getLast?_concat]
      dsimp only
      rw [hl]
      by_cases hk : l.1 = i.1
      · simp [hk, List.dropLast_concat]
      · simp [hk]
    rw [List.foldl_cons, hpush]
    unfold runsCont
    rw [hl]
    by_cases hk : l.1 = i.1
    · rw [if_pos hk, if_pos (by simp [hk]), ih B (cur ++ [i]) (by simp)]
    · rw [if_neg hk, if_neg (by simp [hk]), ih (B ++ [cur]) [i] (by simp)]
      simp

theorem foldl_pushBlock (items : List (List ℕ × ℕ)) :
    items.foldl pushBlock [] = runsBy Prod.fst items := by
  cases items with
  | nil => rfl
  | cons i rest =>
    have h0 : pushBlock [] i = [] ++ [[i]] := by unfold pushBlock; simp
    rw [List.foldl_cons, h0, foldl_pushBlock_eq rest [] [i] (by simp)]
    rfl

theorem runsCont_flatten {α β : Type} [DecidableEq β] (key : α → β) :
    ∀ (items cur : List α), (runsCont key cur items).flatten = cur ++ items := by
  intro items
  induction items with
  | nil => intro cur; simp [runsCont]
  | cons a rest ih =>
    intro cur
    unfold runsCont
    by_cases hk : (cur.getLast?).map key = some (key a)
    · rw [if_pos hk, ih (cur ++ [a])]
      simp
    · rw [if_neg hk]
      simp only [List.flatten_cons, ih [a]]
      simp

theorem runsBy_flatten {α β : Type} [DecidableEq β] (key : α → β) (l : List α) :
    (runsBy key l).flatten = l := by
  cases l with
  | nil => rfl
  | cons a rest =>
    unfold runsBy
    rw [runsCont_flatten]
    rfl

theorem runsCont_ne_nil {α β : Type} [DecidableEq β] (key : α → β) :
    ∀ (items cur : List α), cur ≠ [] → ∀ b ∈ runsCont key cur items, b ≠ [] := by
  intro items
  induction items with
  | nil =>
    intro cur hcur b hb
    simp [runsCont] at hb
    subst hb
    exact hcur
  | cons a rest ih =>
    intro cur hcur b hb
    unfold runsCont at hb
    by_cases hk : (cur.getLast?).map key = some (key a)
    · rw [if_pos hk] at hb
      exact ih (cur ++ [a]) (by simp) b hb
    · rw [if_neg hk] at hb
      rcases List.mem_cons.mp hb with hb | hb
      · subst hb; exact hcur
      · exact ih [a] (by simp) b hb

theorem runsBy_ne_nil {α β : Type} [DecidableEq β] (key : α → β) (l : List α) :
    ∀ b ∈ runsBy key l, b ≠ [] := by
  cases l with
  | nil => intro b hb; cases hb
  | cons a rest => exact runsCont_ne_nil key rest [a] (by simp)

theorem runsCont_uniform {α β : Type} [DecidableEq β] (key : α → β) :
    ∀ (items : List α) (cur : List α) (k : β), cur ≠ [] → (∀ x ∈ cur, key x = k) →
      ∀ b ∈ runsCont key cur items, ∀ x ∈ b, ∀ y ∈ b, key x = key y := by
  intro items
  induction items with
  | nil =>
    intro cur k hcur huni b hb x hx y hy
    simp [runsCont] at hb
    subst hb
    rw [huni x hx, huni y hy]
  | cons a rest ih =>
    intro cur k hcur huni b hb x hx y hy
    obtain ⟨l, hl⟩ : ∃ l, cur.getLast? = some l := by
      cases hg : cur.getLast? with
      | none => exact absurd (List.getLast?_eq_none_iff.mp hg) hcur
      | some z => exact ⟨z, rfl⟩
    have hlk : key l = k := huni l (mem_of_getLast?_eq hl)
    unfold runsCont at hb
    rw [hl] at hb
    by_cases hk : key l = key a
    · rw [if_pos (by simp [hk])] at hb
      refine ih (cur ++ [a]) k (by simp) ?_ b hb x hx y hy
      intro z hz
      rcases List.mem_append.mp hz with hz | hz
      · exact huni z hz
      · rw [List.mem_singleton.mp hz, ← hk, hlk]
    · rw [if_neg (by simp [hk])] at hb
      rcases List.mem_cons.mp hb with hb | hb
      · subst hb
        rw [huni x hx, huni y hy]
      · exact ih [a] (key a) (by simp) (by simp) b hb x hx y hy

theorem runsBy_uniform {α β : Type} [DecidableEq β] (key : α → β) (l : List α) :
    ∀ b ∈ runsBy key l, ∀ x ∈ b, ∀ y ∈ b, key x = key y := by
  cases l with
  | nil => intro b hb; cases hb
  | cons a rest =>
    exact runsCont_uniform key rest [a] (key a) (by simp) (by simp)

theorem runsCont_spanItems (rows : List (List Cell)) :
    ∀ (suffix : List (List Cell)) (k : ℕ), rows.drop k = suffix →
      ∀ (cur : List (List ℕ × ℕ)), cur ≠ [] →
        (∀ p ∈ cur, p.1 = spansOf (rows.getD p.2 [])) →
        (runsCont Prod.fst cur (spanItems k suffix)).map
            (List.map (fun p => rows.getD p.2 [])) =
          runsCont spansOf (cur.map (fun p => rows.getD p.2 [])) suffix := by
  intro suffix
  induction suffix with
  | nil =>
    intro k hk cur hcur hkey
    simp [spanItems, runsCont]
  | cons r rest ih =>
    intro k hk cur hcur hkey
    have hget : rows.get? k = some r := by
      have h1 := congrArg List.head? hk
      rw [List.head?_drop] at h1
      simp only [List.head?_cons] at h1
      rw [List.get?_eq_getElem?]
      exact h1
    have hgetr : rows.getD k [] = r := by
      rw [List.getD_eq_getElem?_getD, ← List.get?_eq_getElem?, hget]
      rfl
    have hdrop : rows.drop (k + 1) = rest := by
      have h2 : List.drop 1 (List.drop k rows) = rest := by rw [hk]; rfl
      rw [List.drop_drop] at h2
      exact h2
    obtain ⟨p, hp⟩ : ∃ p, cur.getLast? = some p := by
      cases hg : cur.getLast? with
      | none => exact absurd (List.getLast?_eq_none_iff.mp hg) hcur
      | some z => exact ⟨z, rfl⟩
    have hpkey : p.1 = spansOf (rows.getD p.2 []) := hkey p (mem_of_getLast?_eq hp)
    have hkey' : ∀ z ∈ cur ++ [(spansOf r, k)], z.1 = spansOf (rows.getD z.2 []) := by
      intro z hz
      rcases List.mem_append.mp hz with hz | hz
      · exact hkey z hz
      · rw [List.mem_singleton.mp hz]
        show spansOf r = spansOf (rows.getD k [])
        rw [hgetr]
    have hkey1 : ∀ z ∈ [(spansOf r, k)], z.1 = spansOf (rows.getD z.2 []) := by
      intro z hz
      rw [List.mem_singleton.mp hz]
      show spansOf r = spansOf (rows.getD k [])
      rw [hgetr]
    have hspan : spanItems k (r :: rest) = (spansOf r, k) :: spanItems (k + 1) rest := rfl
    rw [hspan, runsCont_cons, runsCont_cons, List.getLast?_map, hp]
    by_cases hq : p.1 = spansOf r
    · have hcl : (some p).map Prod.fst = some (spansOf r) := by
        show some p.1 = some (spansOf r)
        rw [hq]
      have hcr : ((some p).map (fun p => rows.getD p.2 [])).map spansOf =
          some (spansOf r) := by
        show some (spansOf (rows.getD p.2 [])) = some (spansOf r)
        rw [← hpkey, hq]
      rw [if_pos hcl, if_pos hcr,
        ih (k + 1) hdrop (cur ++ [(spansOf r, k)]) (by simp) hkey']
      rw [List.map_append]
      simp only [List.map_cons, List.map_nil, hgetr]
    · have hcl : ¬ (some p).map Prod.fst = some (spansOf r) := by
        show ¬ some p.1 = some (spansOf r)
        simpa using hq
      have hcr : ¬ ((some p).map (fun p => rows.getD p.2 [])).map spansOf =
          some (spansOf r) := by
        show ¬ some (spansOf (rows.getD p.2 [])) = some (spansOf r)
        rw [← hpkey]
        simpa using hq
      rw [if_neg hcl, if_neg hcr, List.map_cons,
        ih (k + 1) hdrop [(spansOf r, k)] (by simp) hkey1]
      simp only [List.map_cons, List.map_nil, hgetr]

/-- The fold of `row_portions_blocks` computes exactly the maximal runs
of consecutive rows with identical span patterns. -/
theorem blocksOf_eq_runsBy (rows : List (List Cell)) :
    blocksOf rows = runsBy spansOf rows := by
  unfold blocksOf
  rw [foldl_pushBlock]
  cases rows with
  | nil => rfl
  | cons r rest =>
    show (runsCont Prod.fst [(spansOf r, 0)] (spanItems 1 rest)).map _ = _
    have := runsCont_spanItems (r :: rest) rest 1 (by simp) [(spansOf r, 0)]
      (by simp) (by simp)
    rw [this]
    rfl

/-! ## Eliminating the index bookkeeping of the Portion Calculator -/

theorem enumFrom_map_snd_comp {α γ : Type} (F : α → γ) :
    ∀ (l : List α) (k : ℕ), (List.enumFrom k l).map (fun q => F q.2) = l.map F := by
  intro l
  induction l with
  | nil => intro k; rfl
  | cons a t ih =>
    intro k
    show F a :: (List.enumFrom (k + 1) t).map (fun q => F q.2) = F a :: t.map F
    rw [ih (k + 1)]

theorem enum_map_snd_comp {α γ : Type} (l : List α) (F : α → γ) :
    l.enum.map (fun q => F q.2) = l.map F :=
  enumFrom_map_snd_comp F l 0

theorem getD_map_of_get? {α β : Type} (g : α → β) {l : List α} {i : ℕ} {a : α} (d : β)
    (h : l.get? i = some a) : (l.map g).getD i d = g a := by
  rw [List.getD_eq_getElem?_getD, List.getElem?_map, ← List.get?_eq_getElem?, h]
  rfl

/-- The index-based portion computation of a block is the direct map
`fdiv (cell weight) (block reference weight)` over the block's rows. -/
theorem blockRowPortions_eq (block : List (List Cell)) :
    blockRowPortions block =
      block.map (fun row => row.map (fun c => fdiv c.weight (blockRefWeight block))) := by
  unfold blockRowPortions
  have houter : ∀ p ∈ block.enum,
      (p.2.enum.map (fun q =>
        fdiv (((blockColumnsWeight block).getD p.1 []).getD q.1 0) (blockRefWeight block))) =
      p.2.map (fun c => fdiv c.weight (blockRefWeight block)) := by
    intro p hp
    have hget : block.get? p.1 = some p.2 := by
      rw [List.get?_eq_getElem?]
      exact List.mem_enum_iff_getElem?.mp hp
    have hcw : (blockColumnsWeight block).getD p.1 [] = p.2.map Cell.weight :=
      getD_map_of_get? _ _ hget
    rw [hcw]
    have hinner : ∀ q ∈ p.2.enum,
        fdiv ((p.2.map Cell.weight).getD q.1 0) (blockRefWeight block) =
          fdiv q.2.weight (blockRefWeight block) := by
      intro q hq
      have hgq : p.2.get? q.1 = some q.2 := by
        rw [List.get?_eq_getElem?]
        exact List.mem_enum_iff_getElem?.mp hq
      rw [getD_map_of_get? _ _ hgq]
    rw [List.map_congr_left hinner]
    exact enum_map_snd_comp p.2 (fun c => fdiv c.weight (blockRefWeight block))
  calc block.enum.map _ = block.enum.map (fun p =>
      p.2.map (fun c => fdiv c.weight (blockRefWeight block))) :=
        List.map_congr_left houter
    _ = _ := enum_map_snd_comp block _

/-- Amended specification of the Portion Calculator, with covered cells
included (as the code computes): every cell's natural weight is the byte
count of its widest content line; a block's reference weight is the
maximum over the block's rows of the sum of all the row's cell weights;
every cell's portion is weight divided by the reference weight under
`f32` semantics; the block's portion vector is the positionwise
`f32::max` across the block's rows and is assigned to every row of the
block; blocks are maximal runs of consecutive rows with identical span
patterns. -/
def portionsSpec (rows : List (List Cell)) : List (List F) :=
  ((runsBy spansOf rows).map (fun block =>
    let ref := maxD0 (block.map (fun r => (r.map Cell.weight).sum))
    let perRow := block.map (fun row => row.map (fun c => fdiv c.weight ref))
    let maxP := (perRow.drop 1).foldl (fun acc row => List.zipWith fmax acc row)
      (perRow.headD [])
    List.replicate block.length maxP)).flatten

/-- `row_portions_blocks` computes exactly `portionsSpec`. -/
theorem rowPortionsBlocks_eq_portionsSpec (rows : List (List Cell)) :
    rowPortionsBlocks rows = portionsSpec rows := by
  unfold rowPortionsBlocks portionsSpec
  rw [blocksOf_eq_runsBy]
  congr 1
  refine List.map_congr_left ?_
  intro block hb
  unfold blockMaxPortions
  rw [blockRowPortions_eq]
  rfl

/-! ## Pointwise bounds on the positionwise-maximum portion vector -/

theorem fdiv_of_ne_zero {a b : ℕ} (hb : b ≠ 0) : fdiv a b = F.val ⟨a, b⟩ := by
  simp [fdiv, hb]

/-- `f32::max` of two fractions over the same nonzero denominator is
the fraction of the larger numerator. -/
theorem fmax_sameden {B : ℕ} (hB : B ≠ 0) (a b : ℕ) :
    fmax (F.val ⟨a, B⟩) (F.val ⟨b, B⟩) = F.val ⟨max a b, B⟩ := by
  unfold fmax
  dsimp only
  by_cases h : a * B < b * B
  · rw [if_pos h]
    have : a < b := lt_of_mul_lt_mul_right h (Nat.zero_le B)
    rw [Nat.max_eq_right (le_of_lt this)]
  · rw [if_neg h]
    have hBpos : 0 < B := Nat.pos_of_ne_zero hB
    have : b ≤ a := by
      by_contra hab
      exact h ((Nat.mul_lt_mul_right hBpos).mpr (by omega))
    rw [Nat.max_eq_left this]

/-- Zipping `fmax` over two same-denominator fraction lists is the
pointwise numerator maximum. -/
theorem zipWith_fmax_map {B : ℕ} (hB : B ≠ 0) :
    ∀ xs ys : List ℕ,
      List.zipWith fmax (xs.map (fun w => F.val ⟨w, B⟩)) (ys.map (fun w => F.val ⟨w, B⟩)) =
        (List.zipWith max xs ys).map (fun w => F.val ⟨w, B⟩) := by
  intro xs
  induction xs with
  | nil => intro ys; simp
  | cons x xt ih =>
    intro ys
    cases ys with
    | nil => simp
    | cons y yt =>
      simp only [List.map_cons, List.zipWith_cons_cons, ih yt, fmax_sameden hB]

/-- The positionwise-maximum fold on same-denominator fraction lists is
the numerator-level fold. -/
theorem foldl_zip_fmax_map {B : ℕ} (hB : B ≠ 0) :
    ∀ (wss : List (List ℕ)) (ws0 : List ℕ),
      (wss.map (fun ws => ws.map (fun w => F.val ⟨w, B⟩))).foldl
          (fun a r => List.zipWith fmax a r) (ws0.map (fun w => F.val ⟨w, B⟩)) =
        (wss.foldl (fun a r => List.zipWith max a r) ws0).map (fun w => F.val ⟨w, B⟩) := by
  intro wss
  induction wss with
  | nil => intro ws0; rfl
  | cons ws wst ih =>
    intro ws0
    simp only [List.map_cons, List.foldl_cons, zipWith_fmax_map hB]
    exact ih (List.zipWith max ws0 ws)

/-- Invariant of the numerator-level positionwise-maximum fold: length
is preserved and the result dominates the start and every processed
row. -/
theorem foldl_zipmax_spec {n : ℕ} :
    ∀ (rows : List (List ℕ)) (acc : List ℕ),
      acc.length = n → (∀ r ∈ rows, r.length = n) →
      (rows.foldl (fun a r => List.zipWith max a r) acc).length = n ∧
      (∀ i a m, acc.get? i = some a →
        (rows.foldl (fun a r => List.zipWith max a r) acc).get? i = some m → a ≤ m) ∧
      (∀ r ∈ rows, ∀ i a m, r.get? i = some a →
        (rows.foldl (fun a r => List.zipWith max a r) acc).get? i = some m → a ≤ m) := by
  intro rows
  induction rows with
  | nil =>
    intro acc hlen hrows
    refine ⟨hlen, ?_, ?_⟩
    · intro i a m h1 h2
      rw [List.foldl_nil] at h2
      rw [h1] at h2
      cases Option.some.inj h2
      exact le_refl _
    · intro r hr
      cases hr
  | cons r rest ih =>
    intro acc hlen hrows
    have hrlen : r.length = n := hrows r (List.mem_cons_self _ _)
    set acc' := List.zipWith max acc r with hacc'
    have hlen' : acc'.length = n := by
      rw [hacc', List.length_zipWith, hlen, hrlen]
      omega
    have hstep : ∀ i a m, acc.get? i = some a → acc'.get? i = some m → a ≤ m := by
      intro i a m h1 h2
      rw [hacc'] at h2
      obtain ⟨x, y, hx, hy, hxy⟩ := (List.get?_zipWith_eq_some _ _ _ _ _).mp h2
      rw [h1] at hx
      cases Option.some.inj hx
      subst hxy
      exact le_max_left _ _
    have hstepr : ∀ i a m, r.get? i = some a → acc'.get? i = some m → a ≤ m := by
      intro i a m h1 h2
      rw [hacc'] at h2
      obtain ⟨x, y, hx, hy, hxy⟩ := (List.get?_zipWith_eq_some _ _ _ _ _).mp h2
      rw [h1] at hy
      cases Option.some.inj hy
      subst hxy
      exact le_max_right _ _
    obtain ⟨ih1, ih2, ih3⟩ := ih acc' hlen' (fun x hx => hrows x (List.mem_cons_of_mem _ hx))
    have hmid : ∀ i, i < n → ∃ m, acc'.get? i = some m := by
      intro i hi
      have hi' : i < acc'.length := by rw [hlen']; exact hi
      exact ⟨acc'.get ⟨i, hi'⟩, List.get?_eq_get hi'⟩
    refine ⟨ih1, ?_, ?_⟩
    · intro i a m h1 h2
      rw [List.foldl_cons] at h2
      have hi : i < n := by
        obtain ⟨hlt, _⟩ := List.get?_eq_some.mp h1
        rw [hlen] at hlt
        exact hlt
      obtain ⟨qm, hqm⟩ := hmid i hi
      exact le_trans (hstep i a qm h1 hqm) (ih2 i qm m hqm h2)
    · intro r' hr' i a m h1 h2
      rw [List.foldl_cons] at h2
      rcases List.mem_cons.mp hr' with hr' | hr'
      · subst hr'
        have hi : i < n := by
          obtain ⟨hlt, _⟩ := List.get?_eq_some.mp h1
          rw [hrlen] at hlt
          exact hlt
        obtain ⟨qm, hqm⟩ := hmid i hi
        exact le_trans (hstepr i a qm h1 hqm) (ih2 i qm m hqm h2)
      · exact ih3 r' hr' i a m h1 h2

/-! ## Claim C7: the height padding of the Cell Formatter -/

/-- C7: for every cell whose natural line count is at most the assigned
height, the height-padding step of `CellFormatter::format` (`padTo`,
the `content.push_str(&"\n".repeat(...))` fragment) yields a content
area with exactly `height` lines, and the original content is kept as a
prefix — it is never truncated. -/
theorem C7_pad_exact (c : Cell) (h : ℕ) (hle : c.height ≤ h) :
    (rustLines (padTo c.content h)).length = h ∧
    ∃ m, padTo c.content h = c.content ++ List.replicate m '\n' :=
  ⟨rustLines_padTo_length hle, padTo_eq_append c.content h⟩

/-- Concrete witness for C7 at the cell with content "hi" and height 3. -/
theorem C7_pad_exact_witness :
    (Cell.new.set_content ['h', 'i']).height ≤ 3 ∧
    ((rustLines (padTo (Cell.new.set_content ['h', 'i']).content 3)).length = 3 ∧
     ∃ m, padTo (Cell.new.set_content ['h', 'i']).content 3 =
       (Cell.new.set_content ['h', 'i']).content ++ List.replicate m '\n') :=
  ⟨by decide, C7_pad_exact (Cell.new.set_content ['h', 'i']) 3 (by decide)⟩

/-! ## Claim C2: out-of-range access through `Grid::cell` -/

/-- The 2×2 grid whose cell (1, 0) carries content "x", built through
the public mutation API. -/
def c2grid : Option Grid := (Grid.new 2 2).cellMod 1 0 (fun c => c.set_content ['x'])

/-- C2 counterexample: on a 2×2 grid the access `cell(0, 2)` has `j`
beyond the declared columns, yet it does not fail: it silently returns
the cell stored at coordinates (1, 0) (recognisable here by the content
"x" that was written through `cell(1, 0)`). -/
theorem C2_counterexample :
    (c2grid.bind (fun g => g.cell 0 2)) = some (Cell.new.set_content ['x']) ∧
    (c2grid.bind (fun g => g.cell 0 2)) = (c2grid.bind (fun g => g.cell 1 0)) := by
  constructor
  · decide
  · decide

/-- C2 amended: `Grid::cell(i, j)` panics exactly when the flat index
`columns * i + j` falls outside the cell vector; any access whose flat
index is still inside the vector — including out-of-range `(i, j)` such
as `j ≥ columns` — silently returns the cell stored at the in-range
coordinates `(idx / columns, idx % columns)`. -/
theorem C2_amended_flat_index (g : Grid) (i j : ℕ)
    (hwf : g.cells.length = g.count_rows * g.count_columns) :
    (g.cell i j = none ↔ g.count_rows * g.count_columns ≤ g.count_columns * i + j) ∧
    (0 < g.count_columns →
      g.count_columns * i + j < g.count_rows * g.count_columns →
      (g.cell i j =
        g.cell ((g.count_columns * i + j) / g.count_columns)
          ((g.count_columns * i + j) % g.count_columns) ∧
      (g.count_columns * i + j) / g.count_columns < g.count_rows ∧
      (g.count_columns * i + j) % g.count_columns < g.count_columns)) := by
  constructor
  · unfold Grid.cell
    rw [List.get?_eq_none, hwf]
  · intro hcols hlt
    refine ⟨?_, ?_, Nat.mod_lt _ hcols⟩
    · unfold Grid.cell
      congr 1
      exact (Nat.div_add_mod (g.count_columns * i + j) g.count_columns).symm
    · rw [Nat.div_lt_iff_lt_mul hcols]
      exact hlt

/-- Concrete witness for C2 amended at the 2×2 default grid and the
out-of-range access (0, 2). -/
theorem C2_amended_witness :
    (Grid.new 2 2).cells.length = (Grid.new 2 2).count_rows * (Grid.new 2 2).count_columns ∧
    (((Grid.new 2 2).cell 0 2 = none ↔
        (Grid.new 2 2).count_rows * (Grid.new 2 2).count_columns ≤
          (Grid.new 2 2).count_columns * 0 + 2) ∧
      (0 < (Grid.new 2 2).count_columns →
        (Grid.new 2 2).count_columns * 0 + 2 <
          (Grid.new 2 2).count_rows * (Grid.new 2 2).count_columns →
        ((Grid.new 2 2).cell 0 2 =
          (Grid.new 2 2).cell
            (((Grid.new 2 2).count_columns * 0 + 2) / (Grid.new 2 2).count_columns)
            (((Grid.new 2 2).count_columns * 0 + 2) % (Grid.new 2 2).count_columns) ∧
        ((Grid.new 2 2).count_columns * 0 + 2) / (Grid.new 2 2).count_columns <
          (Grid.new 2 2).count_rows ∧
        ((Grid.new 2 2).count_columns * 0 + 2) % (Grid.new 2 2).count_columns <
          (Grid.new 2 2).count_columns))) :=
  ⟨by decide, C2_amended_flat_index (Grid.new 2 2) 0 2 (by decide)⟩

/-! ## Claim C3: degenerate grids -/

/-- Rendering a grid with zero rows yields the empty string (any column
count, any fuel of at least one step of the width search). -/
theorem render_zero_rows (columns fuel : ℕ) :
    Grid.render (fuel + 1) (Grid.new 0 columns) = some [] := rfl

/-- Rendering a grid with at least one row and zero columns panics: the
`unwrap` in the per-row height computation of `cell_size` fails on the
empty row. -/
theorem render_zero_cols (r fuel : ℕ) : Grid.render fuel (Grid.new (r + 1) 0) = none := by
  unfold Grid.render
  have hrows : rowsOf (Grid.new (r + 1) 0).cells (Grid.new (r + 1) 0).size.1
      (Grid.new (r + 1) 0).size.2 = [] :: List.replicate r ([] : List Cell) := by
    show rowsOf _ (r + 1) 0 = _
    unfold rowsOf
    rw [List.range_succ_eq_map]
    simp only [List.map_cons, List.map_map]
    show ([] : List Cell) :: List.map (fun i => ([] : List Cell)) (List.range r) = _
    simp
  rw [hrows]
  have hh : rowsHeightOf ([] :: List.replicate r ([] : List Cell)) = none := rfl
  have hcs : ∀ P CW, cellSize fuel ([] :: List.replicate r ([] : List Cell)) P CW = none := by
    intro P CW
    unfold cellSize
    rw [hh]
    rfl
  show (cellSize fuel _ _ _).bind _ = none
  rw [hcs]
  rfl

/-- C3 counterexample: the claim promises that every zero-column grid
renders to the empty string, but rendering the 1×0 grid panics instead
(no fuel makes it succeed). -/
theorem C3_counterexample :
    ¬ ∃ fuel out, Grid.render fuel (Grid.new 1 0) = some out := by
  rintro ⟨fuel, out, h⟩
  rw [render_zero_cols 0 fuel] at h
  cases h

/-- C3 amended: a grid with zero rows renders to the empty string, for
any column count; a grid with at least one row and zero columns panics
(the `unwrap` on the empty row's height). -/
theorem C3_amended_render_empty :
    (∀ columns fuel : ℕ, Grid.render (fuel + 1) (Grid.new 0 columns) = some []) ∧
    (∀ r fuel : ℕ, Grid.render fuel (Grid.new (r + 1) 0) = none) :=
  ⟨render_zero_rows, render_zero_cols⟩

/-! ## Claims C5 and C9: covered cells in the Portion Calculator and
in the rendered output -/

/-- Visibility mask of a row: `true` for cells not absorbed by a
preceding cell's span, computed with the skip counter of the
`scan(0, ...)` idiom used by `remove_covered_cells` and `row_portions`. -/
def visibleMask : ℕ → List Cell → List Bool
  | _, [] => []
  | 0, c :: rest => true :: visibleMask c.span_row rest
  | k + 1, _ :: rest => false :: visibleMask k rest

/-- The Portion Calculator as claim C5 states it: covered cells are
excluded — their weight contributes nothing and their position gets
portion 0 — while visible cells get weight / reference-weight, the
reference weight being the per-block maximum of the row sums of visible
weights, followed by the positionwise maximum across the block's rows. -/
def portionsSpecExcl (rows : List (List Cell)) : List (List F) :=
  ((runsBy spansOf rows).map (fun block =>
    let visibleWeights := fun (row : List Cell) =>
      (List.zip (visibleMask 0 row) row).map
        (fun p => if p.1 then p.2.weight else 0)
    let ref := maxD0 (block.map (fun r => (visibleWeights r).sum))
    let perRow := block.map (fun row => (visibleWeights row).map (fun w => fdiv w ref))
    let maxP := (perRow.drop 1).foldl (fun acc row => List.zipWith fmax acc row)
      (perRow.headD [])
    List.replicate block.length maxP)).flatten

/-- The 2×2 grid with a column-spanning cell "0-0" whose covered
neighbour carries the content "zzz", built through the public API
setters. -/
def c9grid : Grid :=
  ⟨(2, 2),
   [(Cell.new.set_content ['0', '-', '0']).set_row_span 1,
    Cell.new.set_content ['z', 'z', 'z'],
    Cell.new.set_content ['1', '-', '0'],
    Cell.new.set_content ['1', '-', '1']]⟩

/-- C5 counterexample: on `c9grid` the Portion Calculator of the code
gives the covered cell (0, 1) the nonzero portion 3/6 = 1/2 — covered
cells are not excluded — whereas the covered-cells-excluded computation
the claim describes gives it portion 0/3 = 0. -/
theorem C5_counterexample :
    ((rowPortionsBlocks (rowsOf c9grid.cells 2 2)).getD 0 []).getD 1 F.nan =
      F.val ⟨3, 6⟩ ∧
    ((portionsSpecExcl (rowsOf c9grid.cells 2 2)).getD 0 []).getD 1 F.nan =
      F.val ⟨0, 3⟩ ∧
    Frac.val ⟨3, 6⟩ = (1 / 2 : ℚ) ∧ Frac.val ⟨0, 3⟩ = (0 : ℚ) ∧ (1 / 2 : ℚ) ≠ 0 := by
  refine ⟨by decide, by decide, ?_, ?_, by norm_num⟩
  · show ((3 : ℕ) : ℚ) / ((6 : ℕ) : ℚ) = 1 / 2
    norm_num
  · show ((0 : ℕ) : ℚ) / ((3 : ℕ) : ℚ) = 0
    norm_num

/-- C5 amended: the Portion Calculator computes, for every block
(a maximal run of consecutive rows with identical span patterns), every
cell's natural weight — covered cells included — as the byte count of
its widest content line, the block's reference weight as the maximum
over the block's rows of the sum of all the row's cell weights, every
cell's portion as weight / reference weight under `f32` semantics, and
assigns to every row of the block the positionwise `f32::max` of the
block's per-row portion vectors. -/
theorem C5_amended_portions (rows : List (List Cell)) :
    rowPortionsBlocks rows = portionsSpec rows :=
  rowPortionsBlocks_eq_portionsSpec rows

/-- C9: the failing input for covered-cell leakage: rendering `c9grid`
succeeds and the covered cell's content "zzz" appears verbatim in the
output. -/
theorem C9_covered_leak :
    Grid.render 1 c9grid =
      some ("+---+---+\n|0-0|zzz|\n+---+---+\n|1-0|1-1|\n+---+---+\n").data ∧
    List.IsInfix ['z', 'z', 'z']
      ("+---+---+\n|0-0|zzz|\n+---+---+\n|1-0|1-1|\n+---+---+\n").data := by
  constructor
  · decide
  · decide

/-! ## Claim C1: the counterexample grid with per-cell padding -/

/-- A 2×3 grid with valid coordinates, in-bounds (zero) spans and
default glyphs; the only non-default datum is a horizontal padding of 1
on cell (0, 0). -/
def c1grid : Grid :=
  ⟨(2, 3),
   [(Cell.new.set_content ['a', 'b']).set_horizontal_ident 1,
    Cell.new.set_content ['a'],
    Cell.new.set_content ['a'],
    Cell.new.set_content ['a', 'b'],
    Cell.new.set_content ['a'],
    Cell.new.set_content ['a']]⟩

/-- C1 counterexample: rendering `c1grid` succeeds, but the output
lines have character lengths 10, 10, 10, 11, 11 — the `adjust` pass
floors away row 0's shortfall of 2 over 3 cells, so the rendered rows
do not share one total width and the output is not rectangular. -/
theorem C1_counterexample :
    Grid.render 1 c1grid =
      some ("+----+-+-+\n| ab |a|a|\n+----+-+-+\n|ab |a |a |\n+---+--+--+\n").data ∧
    (rustLines ("+----+-+-+\n| ab |a|a|\n+----+-+-+\n|ab |a |a |\n+---+--+--+\n").data).map
      List.length = [10, 10, 10, 11, 11] ∧
    ¬ (∀ l1 ∈ rustLines ("+----+-+-+\n| ab |a|a|\n+----+-+-+\n|ab |a |a |\n+---+--+--+\n").data,
       ∀ l2 ∈ rustLines ("+----+-+-+\n| ab |a|a|\n+----+-+-+\n|ab |a |a |\n+---+--+--+\n").data,
        l1.length = l2.length) := by
  refine ⟨by decide, by decide, ?_⟩
  intro hall
  have h1 := hall ("+----+-+-+").data (by decide) ("|ab |a |a |").data (by decide)
  simp at h1

/-! ## Claim C6: blocks with reference weight 0 -/

theorem getD_replicate_self {α : Type} (n i : ℕ) (x : α) :
    (List.replicate n x).getD i x = x := by
  induction n generalizing i with
  | zero => simp
  | succ n ih =>
    cases i with
    | zero => simp [List.replicate_succ]
    | succ i =>
      rw [List.replicate_succ]
      simp only [List.getD_cons_succ]
      exact ih i

theorem getD_replicate_of_lt {α : Type} {n i : ℕ} (h : i < n) (x : α) (d : α) :
    (List.replicate n x).getD i d = x := by
  induction n generalizing i with
  | zero => omega
  | succ n ih =>
    cases i with
    | zero => simp [List.replicate_succ]
    | succ i =>
      rw [List.replicate_succ]
      simpa using ih (by omega)

theorem rowsOf_replicate (n m : ℕ) (x : Cell) :
    rowsOf (List.replicate (n * m) x) n m = List.replicate n (List.replicate m x) := by
  unfold rowsOf
  rw [List.eq_replicate_iff]
  constructor
  · simp
  · intro row hrow
    obtain ⟨i, hi, hrow⟩ := List.mem_map.mp hrow
    have hin : i < n := List.mem_range.mp hi
    subst hrow
    rw [List.drop_replicate, List.take_replicate]
    congr 1
    have hle : m * i + m ≤ n * m := by
      have h1 : (i + 1) * m ≤ n * m := Nat.mul_le_mul_right m (by omega)
      calc m * i + m = (i + 1) * m := by ring
        _ ≤ n * m := h1
    omega

theorem runsCont_const {α β : Type} [DecidableEq β] (key : α → β) (x : α) :
    ∀ (n : ℕ) (cur : List α), cur ≠ [] → (∀ y ∈ cur, key y = key x) →
      runsCont key cur (List.replicate n x) = [cur ++ List.replicate n x] := by
  intro n
  induction n with
  | zero =>
    intro cur hcur huni
    simp [runsCont_nil]
  | succ n ih =>
    intro cur hcur huni
    obtain ⟨l, hl⟩ : ∃ l, cur.getLast? = some l := by
      cases hg : cur.getLast? with
      | none => exact absurd (List.getLast?_eq_none_iff.mp hg) hcur
      | some z => exact ⟨z, rfl⟩
    rw [List.replicate_succ, runsCont_cons, hl]
    have hcond : (some l).map key = some (key x) := by
      show some (key l) = some (key x)
      rw [huni l (mem_of_getLast?_eq hl)]
    rw [if_pos hcond, ih (cur ++ [x]) (by simp) ?huni]
    · rw [List.append_assoc]
      rfl
    case huni =>
      intro y hy
      rcases List.mem_append.mp hy with hy | hy
      · exact huni y hy
      · rw [List.mem_singleton.mp hy]

theorem runsBy_replicate {α β : Type} [DecidableEq β] (key : α → β) (n : ℕ) (x : α) :
    runsBy key (List.replicate (n + 1) x) = [List.replicate (n + 1) x] := by
  rw [List.replicate_succ]
  show runsCont key [x] (List.replicate n x) = _
  rw [runsCont_const key x n [x] (by simp) (by simp)]
  rfl

theorem maxD0_replicate_zero : ∀ n : ℕ, maxD0 (List.replicate n 0) = 0 := by
  intro n
  induction n with
  | zero => rfl
  | succ n ih =>
    rw [List.replicate_succ, maxD0_cons, ih]
    rfl

theorem zipWith_fmax_nan (k : ℕ) :
    ∀ j, List.zipWith fmax (List.replicate k F.nan) (List.replicate j F.nan) =
      List.replicate (min k j) F.nan := by
  induction k with
  | zero => intro j; simp
  | succ k ih =>
    intro j
    cases j with
    | zero => simp
    | succ j =>
      rw [List.replicate_succ, List.replicate_succ, List.zipWith_cons_cons, ih j]
      have : min (k + 1) (j + 1) = min k j + 1 := by omega
      rw [this, List.replicate_succ]
      rfl

theorem foldl_fmax_nan_replicate (k : ℕ) :
    ∀ r, (List.replicate r (List.replicate k F.nan)).foldl
        (fun acc row => List.zipWith fmax acc row) (List.replicate k F.nan) =
      List.replicate k F.nan := by
  intro r
  induction r with
  | zero => rfl
  | succ r ih =>
    rw [List.replicate_succ, List.foldl_cons, zipWith_fmax_nan k k]
    have : min k k = k := by omega
    rw [this]
    exact ih

/-- The portion vectors of the all-default grid are all `nan`: every
block has reference weight 0 and every division is `0.0 / 0.0`. -/
theorem portions_replicate_new (r c : ℕ) :
    rowPortionsBlocks (List.replicate (r + 1) (List.replicate (c + 1) Cell.new)) =
      List.replicate (r + 1) (List.replicate (c + 1) F.nan) := by
  unfold rowPortionsBlocks
  rw [blocksOf_eq_runsBy, runsBy_replicate]
  have hB : blockRefWeight (List.replicate (r + 1) (List.replicate (c + 1) Cell.new)) = 0 := by
    unfold blockRefWeight
    have hmw : (List.replicate (c + 1) Cell.new).map Cell.weight =
        List.replicate (c + 1) 0 := by
      rw [List.map_replicate]
      rfl
    rw [List.map_replicate, hmw]
    have hsum : (List.replicate (c + 1) (0 : ℕ)).sum = 0 := by simp
    rw [hsum]
    exact maxD0_replicate_zero (r + 1)
  have hrow : blockMaxPortions (List.replicate (r + 1) (List.replicate (c + 1) Cell.new)) =
      List.replicate (c + 1) F.nan := by
    unfold blockMaxPortions
    rw [blockRowPortions_eq, hB]
    have hmap : (List.replicate (r + 1) (List.replicate (c + 1) Cell.new)).map
        (fun row => row.map (fun cl => fdiv cl.weight 0)) =
        List.replicate (r + 1) (List.replicate (c + 1) F.nan) := by
      rw [List.map_replicate, List.map_replicate]
      rfl
    rw [hmap, List.replicate_succ]
    show (List.replicate r (List.replicate (c + 1) F.nan)).foldl _
        ((List.replicate (c + 1) F.nan :: List.replicate r
          (List.replicate (c + 1) F.nan)).headD []) = _
    simp only [List.headD_cons]
    exact foldl_fmax_nan_replicate (c + 1) r
  simp only [List.map_cons, List.map_nil, List.flatten_cons, List.flatten_nil,
    List.append_nil, List.length_replicate, hrow]

theorem mapM_replicate_option {α β : Type} (f : α → Option β) {x : α} {y : β}
    (h : f x = some y) : ∀ n, (List.replicate n x).mapM f = some (List.replicate n y) := by
  intro n
  induction n with
  | zero => rfl
  | succ n ih =>
    rw [List.replicate_succ, List.mapM_cons, h, ih]
    rfl

theorem mapM_cons_none {α β : Type} (f : α → Option β) {a : α} (l : List α)
    (h : f a = none) : (a :: l).mapM f = none := by
  rw [List.mapM_cons, h]
  rfl

theorem filter_pos_replicate_zero : ∀ n : ℕ,
    (List.replicate n (0 : ℕ)).filter (fun w => 0 < w) = [] := by
  intro n
  induction n with
  | zero => rfl
  | succ n ih =>
    rw [List.replicate_succ, List.filter_cons]
    simp only [ih]
    rfl

/-- The measured sizes of the all-default grid: every width is the cast
of `nan`, hence 0, at every trial weight. -/
theorem measure_new_grid (r c W : ℕ) :
    measureCellSize (List.replicate (r + 1) (List.replicate (c + 1) Cell.new))
        (List.replicate (r + 1) (List.replicate (c + 1) F.nan))
        (List.replicate (r + 1) 0) W =
      List.replicate (r + 1) (List.replicate (c + 1) ((0 : ℕ), (0 : ℕ))) := by
  unfold measureCellSize
  have hbody : ∀ p ∈ (List.replicate (r + 1) (List.replicate (c + 1) Cell.new)).enum,
      ((List.range p.2.length).map (fun cellIndex =>
        (floorCast (fmul W (((List.replicate (r + 1)
            (List.replicate (c + 1) F.nan)).getD p.1 []).getD cellIndex F.nan)),
         (List.replicate (r + 1) (0 : ℕ)).getD p.1 0))) =
      List.replicate (c + 1) ((0 : ℕ), (0 : ℕ)) := by
    intro p hp
    have hget : (List.replicate (r + 1) (List.replicate (c + 1) Cell.new)).get? p.1 =
        some p.2 := by
      rw [List.get?_eq_getElem?]
      exact List.mem_enum_iff_getElem?.mp hp
    have hlt : p.1 < r + 1 := by
      obtain ⟨hlt, _⟩ := List.get?_eq_some.mp hget
      simpa using hlt
    have hp2 : p.2 = List.replicate (c + 1) Cell.new :=
      List.eq_of_mem_replicate (List.get?_mem hget)
    rw [getD_replicate_of_lt hlt, getD_replicate_of_lt hlt, hp2]
    have hone : ∀ ci : ℕ,
        (floorCast (fmul W ((List.replicate (c + 1) F.nan).getD ci F.nan)),
          (0 : ℕ)) = ((0 : ℕ), (0 : ℕ)) := by
      intro ci
      rw [getD_replicate_self]
      rfl
    rw [List.length_replicate]
    calc (List.range (c + 1)).map _ = (List.range (c + 1)).map (fun _ => ((0 : ℕ), (0 : ℕ))) :=
        List.map_congr_left (fun ci _ => hone ci)
      _ = List.replicate (c + 1) ((0 : ℕ), (0 : ℕ)) := by
        rw [List.map_const', List.length_range]
  calc (List.replicate (r + 1) (List.replicate (c + 1) Cell.new)).enum.map _
      = (List.replicate (r + 1) (List.replicate (c + 1) Cell.new)).enum.map
          (fun _ => List.replicate (c + 1) ((0 : ℕ), (0 : ℕ))) := List.map_congr_left hbody
    _ = _ := by
      rw [List.map_const', List.enum_length, List.length_replicate]

theorem isRowsSize_cons_none {row : List (ℕ × ℕ)} (rest : List (List (ℕ × ℕ))) (W : ℕ)
    (h : rowWeight ((row.map Prod.fst).filter (fun w => 0 < w)) = none) :
    isRowsSize (row :: rest) W = none := by
  unfold isRowsSize
  rw [List.mapM_cons]
  dsimp only
  rw [h]
  rfl

theorem isRowsSize_zero_widths (r c W : ℕ) :
    isRowsSize (List.replicate (r + 1) (List.replicate (c + 1) ((0 : ℕ), (0 : ℕ)))) W =
      none := by
  have hfirst : rowWeight (((List.replicate (c + 1) ((0 : ℕ), (0 : ℕ))).map
      Prod.fst).filter (fun w => 0 < w)) = none := by
    rw [List.map_replicate]
    rw [filter_pos_replicate_zero]
    rfl
  rw [List.replicate_succ]
  exact isRowsSize_cons_none _ W hfirst

/-- Rendering the all-default `(r+1)×(c+1)` grid panics: every width is
0, so `is_rows_size` hits the `usize` underflow of `row_weight` on an
empty list of positive widths, at every trial weight. -/
theorem render_new_grid_none (r c fuel : ℕ) :
    Grid.render fuel (Grid.new (r + 1) (c + 1)) = none := by
  unfold Grid.render
  have hrows : rowsOf (Grid.new (r + 1) (c + 1)).cells (Grid.new (r + 1) (c + 1)).size.1
      (Grid.new (r + 1) (c + 1)).size.2 =
      List.replicate (r + 1) (List.replicate (c + 1) Cell.new) :=
    rowsOf_replicate (r + 1) (c + 1) Cell.new
  rw [hrows]
  have hheights : rowsHeightOf (List.replicate (r + 1) (List.replicate (c + 1) Cell.new)) =
      some (List.replicate (r + 1) 0) := by
    unfold rowsHeightOf
    refine mapM_replicate_option _ ?_ (r + 1)
    show optMax ((List.replicate (c + 1) Cell.new).map Cell.height) = some 0
    have hmap : (List.replicate (c + 1) Cell.new).map Cell.height =
        List.replicate (c + 1) 0 := by
      rw [List.map_replicate]
      rfl
    rw [hmap, List.replicate_succ]
    show some (List.foldl max 0 (List.replicate c 0)) = some 0
    rw [foldl_max_eq, maxD0_replicate_zero]
    rfl
  have hports := portions_replicate_new r c
  have hloop : ∀ f W, cellSizeLoop f
      (List.replicate (r + 1) (List.replicate (c + 1) Cell.new))
      (List.replicate (r + 1) (List.replicate (c + 1) F.nan))
      (List.replicate (r + 1) 0) W = none := by
    intro f
    induction f with
    | zero => intro W; rfl
    | succ f ihf =>
      intro W
      unfold cellSizeLoop
      rw [measure_new_grid]
      simp only [isRowsSize_zero_widths, Option.bind_eq_bind, Option.none_bind]
  have hcs : ∀ CW, cellSize fuel
      (List.replicate (r + 1) (List.replicate (c + 1) Cell.new))
      (rowPortionsBlocks (List.replicate (r + 1) (List.replicate (c + 1) Cell.new)))
      CW = none := by
    intro CW
    unfold cellSize
    rw [hheights, hports]
    show cellSizeLoop fuel _ _ _ _ = none
    exact hloop fuel CW
  show (cellSize fuel _ _ _).bind _ = none
  rw [hcs]
  rfl

/-- C6 counterexample: on the 1×1 all-empty grid the block's reference
weight is 0 but the computed portion is `nan` — not 0 — and rendering
does not proceed: it fails for every amount of fuel. -/
theorem C6_counterexample :
    rowPortionsBlocks (rowsOf (Grid.new 1 1).cells 1 1) = [[F.nan]] ∧
    (∀ f : Frac, F.nan ≠ F.val f) ∧
    ¬ ∃ fuel out, Grid.render fuel (Grid.new 1 1) = some out := by
  refine ⟨by decide, ?_, ?_⟩
  · intro f h
    cases h
  · rintro ⟨fuel, out, h⟩
    rw [render_new_grid_none 0 0 fuel] at h
    cases h

/-- C6 amended: when a block's reference weight is 0 (all cells empty,
as in the all-default grid), the computed portions are `nan` rather
than 0, and rendering such a grid does not succeed: the `nan` widths
cast to 0, every cell is filtered out, and `is_rows_size` panics on the
empty positive-width list, whatever the fuel. -/
theorem C6_amended_nan (r c fuel : ℕ) :
    rowPortionsBlocks (rowsOf (Grid.new (r + 1) (c + 1)).cells (r + 1) (c + 1)) =
      List.replicate (r + 1) (List.replicate (c + 1) F.nan) ∧
    Grid.render fuel (Grid.new (r + 1) (c + 1)) = none := by
  constructor
  · have h1 : (Grid.new (r + 1) (c + 1)).cells =
        List.replicate ((r + 1) * (c + 1)) Cell.new := rfl
    rw [h1, rowsOf_replicate (r + 1) (c + 1) Cell.new]
    exact portions_replicate_new r c
  · exact render_new_grid_none r c fuel

/-! ## Claim C4: the width search of the Row-Weight Solver -/

/-- A 3×2 grid on which the width search never converges: rows 0 and 1
form one block with positionwise-maximum portions 3/4 and 2/4 (summing
to 5/4), row 2 is its own block with portions 1 and 0; the per-row
totals then drift apart linearly and are never equal. -/
def c4grid : Grid :=
  ⟨(3, 2),
   [Cell.new.set_content ['a', 'b'], Cell.new.set_content ['a', 'b'],
    Cell.new.set_content ['a', 'b', 'c'], Cell.new.set_content ['a'],
    (Cell.new.set_content ['a']).set_row_span 1, Cell.new]⟩

theorem isRowsSize_c4 (W : ℕ) (hW : 4 ≤ W) :
    isRowsSize [[(W * 3 / 4, 1), (W * 2 / 4, 1)], [(W * 3 / 4, 1), (W * 2 / 4, 1)],
      [(W * 1 / 1, 1), (W * 0 / 1, 1)]] W = some false := by
  have h1 : 0 < W * 3 / 4 := by omega
  have h2 : 0 < W * 2 / 4 := by omega
  have h3 : 0 < W * 1 / 1 := by omega
  have h4 : ¬ 0 < W * 0 / 1 := by omega
  have ht : W * 1 / 1 < W * 3 / 4 + W * 2 / 4 + 1 := by omega
  unfold isRowsSize
  simp only [List.mapM_cons, List.mapM_nil, List.map_cons, List.map_nil,
    List.filter_cons, List.filter_nil, h1, h2, h3, h4,
    if_true, if_false, decide_eq_true_eq]
  simp only [rowWeight, List.sum_cons, List.sum_nil, List.length_cons, List.length_nil]
  simp only [Option.bind_eq_bind, Option.some_bind, Option.pure_def]
  simp only [optMin, optMax, List.foldl_cons, List.foldl_nil, Option.some.injEq]
  rw [decide_eq_false]
  intro heq
  omega

/-- On `c4grid` the width-search loop runs forever: whatever the fuel,
starting from any trial width of at least 4 it never exits. -/
theorem cellSizeLoop_c4_none :
    ∀ fuel W, 4 ≤ W →
      cellSizeLoop fuel (rowsOf c4grid.cells 3 2)
        [[F.val ⟨3, 4⟩, F.val ⟨2, 4⟩], [F.val ⟨3, 4⟩, F.val ⟨2, 4⟩],
         [F.val ⟨1, 1⟩, F.val ⟨0, 1⟩]] [1, 1, 1] W = none := by
  intro fuel
  induction fuel with
  | zero => intro W hW; rfl
  | succ f ih =>
    intro W hW
    unfold cellSizeLoop
    rw [show measureCellSize (rowsOf c4grid.cells 3 2)
        [[F.val ⟨3, 4⟩, F.val ⟨2, 4⟩], [F.val ⟨3, 4⟩, F.val ⟨2, 4⟩],
         [F.val ⟨1, 1⟩, F.val ⟨0, 1⟩]] [1, 1, 1] W =
      [[(W * 3 / 4, 1), (W * 2 / 4, 1)], [(W * 3 / 4, 1), (W * 2 / 4, 1)],
       [(W * 1 / 1, 1), (W * 0 / 1, 1)]] from rfl]
    dsimp only
    rw [isRowsSize_c4 W hW]
    simp only [Option.bind_eq_bind, Option.some_bind, Bool.false_eq_true, if_false]
    exact ih (W + 1) (by omega)

/-- C4 counterexample: on `c4grid` the Row-Weight Solver's linear
search — started, as the claim states, at the maximum row natural
weight (here 4) — never terminates: no amount of fuel makes `cell_size`
return. -/
theorem C4_counterexample :
    ¬ ∃ fuel sizes,
      cellSize fuel (rowsOf c4grid.cells 3 2)
        (rowPortionsBlocks (rowsOf c4grid.cells 3 2))
        (columnsWeightOf (rowsOf c4grid.cells 3 2)) = some sizes := by
  rintro ⟨fuel, sizes, h⟩
  rw [show rowPortionsBlocks (rowsOf c4grid.cells 3 2) =
      [[F.val ⟨3, 4⟩, F.val ⟨2, 4⟩], [F.val ⟨3, 4⟩, F.val ⟨2, 4⟩],
       [F.val ⟨1, 1⟩, F.val ⟨0, 1⟩]] from by decide] at h
  rw [show columnsWeightOf (rowsOf c4grid.cells 3 2) = 4 from by decide] at h
  unfold cellSize at h
  rw [show rowsHeightOf (rowsOf c4grid.cells 3 2) = some [1, 1, 1] from by decide] at h
  simp only [Option.bind_eq_bind, Option.some_bind] at h
  rw [cellSizeLoop_c4_none fuel 4 (le_refl 4)] at h
  cases h

/-- When `mapM` of an `Option`-valued function succeeds, every input
element is sent by the function to some element of the output list. -/
theorem mapM_mem_of_some {α β : Type} {f : α → Option β} :
    ∀ {l : List α} {ys : List β}, l.mapM f = some ys →
      ∀ x ∈ l, ∃ y ∈ ys, f x = some y := by
  intro l
  induction l with
  | nil => intro ys _ x hx; cases hx
  | cons a t ih =>
    intro ys h x hx
    rw [List.mapM_cons] at h
    cases hfa : f a with
    | none =>
      rw [hfa] at h
      simp only [Option.bind_eq_bind, Option.none_bind] at h
      cases h
    | some b =>
      rw [hfa] at h
      cases hmt : t.mapM f with
      | none =>
        rw [hmt] at h
        simp only [Option.bind_eq_bind, Option.some_bind, Option.none_bind] at h
        cases h
      | some zs =>
        rw [hmt] at h
        simp only [Option.bind_eq_bind, Option.some_bind, Option.pure_def,
          Option.some.injEq] at h
        subst h
        rcases List.mem_cons.mp hx with hx | hx
        · exact ⟨b, List.mem_cons_self _ _, hx ▸ hfa⟩
        · obtain ⟨y, hym, hy⟩ := ih hmt x hx
          exact ⟨y, List.mem_cons_of_mem _ hym, hy⟩

/-- Whenever the width-search loop exits successfully, the size matrix
it returns passes the `is_rows_size` convergence test (the `weight`
argument of `is_rows_size` is unused in the source, so it is checked
here at 0). -/
theorem cellSizeLoop_sound {rows : List (List Cell)} {portions : List (List F)}
    {rowsHeight : List ℕ} :
    ∀ {fuel weight : ℕ} {sizes : List (List (ℕ × ℕ))},
      cellSizeLoop fuel rows portions rowsHeight weight = some sizes →
      isRowsSize sizes 0 = some true := by
  intro fuel
  induction fuel with
  | zero => intro weight sizes h; cases h
  | succ f ih =>
    intro weight sizes h
    unfold cellSizeLoop at h
    dsimp only at h
    cases hok : isRowsSize (measureCellSize rows portions rowsHeight weight) weight with
    | none =>
      rw [hok] at h
      simp only [Option.bind_eq_bind, Option.none_bind] at h
      cases h
    | some b =>
      rw [hok] at h
      simp only [Option.bind_eq_bind, Option.some_bind] at h
      cases b with
      | false =>
        simp only [Bool.false_eq_true, if_false] at h
        exact ih h
      | true =>
        simp only [if_true, Option.pure_def, Option.some.injEq] at h
        subst h
        exact hok

/-- C4 amended: the Row-Weight Solver's linear search need not
terminate (see the counterexample grid), but whenever the search does
exit, the quantity `sum(positive cell widths) + (positive-width-cell
count − 1)` computed by `is_rows_size` is identical for every row of
the returned size matrix. -/
theorem C4_amended_exit_equal (fuel weight : ℕ) (rows : List (List Cell))
    (portions : List (List F)) (sizes : List (List (ℕ × ℕ)))
    (h : cellSize fuel rows portions weight = some sizes) :
    ∀ r1 ∈ sizes, ∀ r2 ∈ sizes,
      rowWeight ((r1.map Prod.fst).filter (fun w => 0 < w)) =
      rowWeight ((r2.map Prod.fst).filter (fun w => 0 < w)) := by
  intro r1 h1 r2 h2
  unfold cellSize at h
  cases hrh : rowsHeightOf rows with
  | none =>
    rw [hrh] at h
    simp only [Option.bind_eq_bind, Option.none_bind] at h
    cases h
  | some rh =>
    rw [hrh] at h
    simp only [Option.bind_eq_bind, Option.some_bind] at h
    have hIs : isRowsSize sizes 0 = some true := cellSizeLoop_sound h
    unfold isRowsSize at hIs
    dsimp only at hIs
    cases hm : sizes.mapM
        (fun row => rowWeight ((row.map Prod.fst).filter (fun w => 0 < w))) with
    | none =>
      rw [hm] at hIs
      simp only [Option.bind_eq_bind, Option.none_bind] at hIs
      cases hIs
    | some ws =>
      rw [hm] at hIs
      simp only [Option.bind_eq_bind, Option.some_bind, Option.pure_def,
        Option.some.injEq] at hIs
      have heq : optMin ws = optMax ws := of_decide_eq_true hIs
      obtain ⟨w1, hw1m, hw1⟩ := mapM_mem_of_some hm r1 h1
      obtain ⟨w2, hw2m, hw2⟩ := mapM_mem_of_some hm r2 h2
      rw [hw1, hw2, all_eq_of_optMin_eq_optMax heq w1 hw1m w2 hw2m]

/-- A 2×2 grid whose width search exits on the very first trial width
(the grid of the source's basic tests). -/
def cwgrid : Grid :=
  ⟨(2, 2),
   [Cell.new.set_content ['0', '-', '0'], Cell.new.set_content ['0', '-', '1'],
    Cell.new.set_content ['1', '-', '0'], Cell.new.set_content ['1', '-', '1']]⟩

/-! ## Claim C8: border draw flags -/

/-- A 1×2 grid whose column-0 cell is empty: it is assigned width 0 and
dropped from rendering, so the row's first rendered cell sits at column
index 1. -/
def c8grid : Grid := ⟨(1, 2), [Cell.new, Cell.new.set_content ['a', 'b']]⟩

/-- C8 counterexample: in `c8grid` both cells of row 0 are visible (no
spans), cell (0, 1) is the row's first rendered cell — column 0 is
assigned width 0 and skipped — yet its formatter has
`left = left_connection = false`, and the rendered row `ab|` carries no
left border: the draw-left rule is `column_index = 0`, not "first
visible cell of its row". -/
theorem C8_counterexample :
    Grid.render 1 c8grid = some ("--+\nab|\n--+\n").data ∧
    cellSize 1 (rowsOf c8grid.cells 1 2) (rowPortionsBlocks (rowsOf c8grid.cells 1 2))
      (columnsWeightOf (rowsOf c8grid.cells 1 2)) = some [[(0, 1), (2, 1)]] ∧
    visibleMask 0 ((rowsOf c8grid.cells 1 2).getD 0 []) = [true, true] ∧
    (buildFormatters (rowsOf c8grid.cells 1 2) [[(0, 1), (2, 1)]]).map
      (fun r => r.map (fun f => [f.left, f.left_connection, f.top, f.right,
        f.bottom, f.right_connection])) =
      [[[false, false, true, true, true, true]]] := by
  decide

/-- The border-flag rule as the corrected claim states it: a cell is
rendered iff its assigned width is nonzero; a rendered cell draws left
border and left corner iff its column index is 0, its top border iff
its row index is 0, and always draws right border, right corner and
bottom border. -/
def rowFlagSpec (ri : ℕ) (sizes : List (ℕ × ℕ)) (p : ℕ × Cell) : Option Formatter :=
  if (sizes.getD p.1 (0, 0)).1 = 0 then none
  else some
    { cell := p.2
      left := decide (p.1 = 0)
      right := true
      top := decide (ri = 0)
      bottom := true
      left_connection := decide (p.1 = 0)
      right_connection := true
      weight := (sizes.getD p.1 (0, 0)).1
      height := (sizes.getD p.1 (0, 0)).2 }

/-- The formatter row built by `fmt` agrees with the explicit flag
rule. -/
theorem buildRow_eq_flagSpec (ri : ℕ) (row : List Cell) (sizes : List (ℕ × ℕ)) :
    buildRowFormatters ri row sizes = row.enum.filterMap (rowFlagSpec ri sizes) := by
  unfold buildRowFormatters
  apply List.filterMap_congr
  intro p _
  unfold rowFlagSpec
  by_cases h0 : (sizes.getD p.1 (0, 0)).1 = 0
  · rw [if_pos h0, if_pos h0]
  · rw [if_neg h0, if_neg h0]
    by_cases h1 : p.1 = 0 <;> by_cases h2 : ri = 0 <;>
      simp [h1, h2, Formatter.new, Formatter.withWeight, Formatter.withHeight,
        Formatter.boxed, Formatter.unLeft, Formatter.unLeftConnection, Formatter.unTop]

/-- Past index 0 the flag rule never grants a left border or left
corner, whatever the enumeration offset. -/
theorem flagSpec_no_left (ri : ℕ) (sizes : List (ℕ × ℕ)) :
    ∀ (t : List Cell) (n : ℕ), n ≠ 0 →
      ∀ f ∈ (List.enumFrom n t).filterMap (rowFlagSpec ri sizes),
        f.left = false ∧ f.left_connection = false := by
  intro t
  induction t with
  | nil => intro n _ f hf; cases hf
  | cons a t ih =>
    intro n hn f hf
    rw [show List.enumFrom n (a :: t) = (n, a) :: List.enumFrom (n + 1) t from rfl] at hf
    cases hc : rowFlagSpec ri sizes (n, a) with
    | none =>
      rw [List.filterMap_cons_none hc] at hf
      exact ih (n + 1) (by omega) f hf
    | some b =>
      rw [List.filterMap_cons_some hc] at hf
      rcases List.mem_cons.mp hf with hf | hf
      · subst hf
        unfold rowFlagSpec at hc
        by_cases h0 : (sizes.getD n (0, 0)).1 = 0
        · rw [if_pos h0] at hc; cases hc
        · rw [if_neg h0] at hc
          rw [Option.some.injEq] at hc
          subst hc
          simp [hn]
      · exact ih (n + 1) (by omega) f hf

/-- C8 amended: the draw flags of a rendered cell are determined by its
original coordinates — left border and left corner iff column index 0,
top border iff row index 0, right border, right corner and bottom
border always — and consequently every formatter after the first in a
row draws neither a left border nor a left corner, so no shared
vertical edge is ever drawn by both of two adjacent rendered cells. -/
theorem C8_amended_border_flags (ri : ℕ) (row : List Cell) (sizes : List (ℕ × ℕ)) :
    buildRowFormatters ri row sizes = row.enum.filterMap (rowFlagSpec ri sizes) ∧
    ((buildRowFormatters ri row sizes).drop 1).all
      (fun f => !f.left && !f.left_connection) = true := by
  refine ⟨buildRow_eq_flagSpec ri row sizes, ?_⟩
  rw [List.all_eq_true]
  intro f hf
  rw [buildRow_eq_flagSpec ri row sizes] at hf
  cases row with
  | nil => cases hf
  | cons c t =>
    rw [show (c :: t).enum = (0, c) :: List.enumFrom 1 t from rfl] at hf
    have hmem : f ∈ (List.enumFrom 1 t).filterMap (rowFlagSpec ri sizes) := by
      cases hc : rowFlagSpec ri sizes (0, c) with
      | none =>
        rw [List.filterMap_cons_none hc] at hf
        exact List.mem_of_mem_drop hf
      | some b =>
        rw [List.filterMap_cons_some hc] at hf
        simpa using hf
    have hres := flagSpec_no_left ri sizes t 1 (by omega) f hmem
    simp [hres.1, hres.2]

theorem C4_amended_witness :
    cellSize 1 (rowsOf cwgrid.cells 2 2)
        (rowPortionsBlocks (rowsOf cwgrid.cells 2 2))
        (columnsWeightOf (rowsOf cwgrid.cells 2 2)) =
      some [[(3, 1), (3, 1)], [(3, 1), (3, 1)]] ∧
    ∀ r1 ∈ [[((3 : ℕ), (1 : ℕ)), (3, 1)], [(3, 1), (3, 1)]],
    ∀ r2 ∈ [[((3 : ℕ), (1 : ℕ)), (3, 1)], [(3, 1), (3, 1)]],
      rowWeight ((r1.map Prod.fst).filter (fun w => 0 < w)) =
      rowWeight ((r2.map Prod.fst).filter (fun w => 0 < w)) :=
  ⟨by decide,
   C4_amended_exit_equal 1 (columnsWeightOf (rowsOf cwgrid.cells 2 2))
     (rowsOf cwgrid.cells 2 2) (rowPortionsBlocks (rowsOf cwgrid.cells 2 2))
     [[(3, 1), (3, 1)], [(3, 1), (3, 1)]] (by decide)⟩

/-! ## Claim C10: line counts of formatted blocks and `concat_lines` -/

/-- A 1×2 grid with zero padding everywhere (so the equal-padding
hypothesis of the claim holds) whose cell (0, 1) carries a corner glyph
containing a newline. -/
def c10grid : Grid :=
  ⟨(1, 2), [Cell.new.set_content ['a', 'b'],
            (Cell.new.set_content ['c', 'd']).set_corner ['x', '\n', 'y']]⟩

/-- C10 counterexample: in `c10grid` every cell of the row has equal
(zero) top and bottom padding and both cells are assigned the same
size, yet the two formatted blocks have 3 and 5 lines — the newline
inside the corner glyph splits the border lines — so the
`assert_eq!` of `concat_lines` fires and rendering fails. -/
theorem C10_counterexample :
    (c10grid.cells.map (fun c => (c.ident.top, c.ident.bottom))) = [(0, 0), (0, 0)] ∧
    cellSize 1 (rowsOf c10grid.cells 1 2) (rowPortionsBlocks (rowsOf c10grid.cells 1 2))
      (columnsWeightOf (rowsOf c10grid.cells 1 2)) = some [[(2, 1), (2, 1)]] ∧
    (adjust (buildFormatters (rowsOf c10grid.cells 1 2) [[(2, 1), (2, 1)]])).map
      (fun g => g.map (fun r => r.map (fun f => (rustLines f.format).length))) =
      some [[3, 5]] ∧
    concatLines ("+--+\n|ab|\n+--+").data ("--x\ny\ncd|\n--x\ny").data = none ∧
    Grid.render 1 c10grid = none := by
  decide

/-- The conditions under which a formatted block is line-regular: the
natural line count fits the assigned height, the right border, bottom
border and right corner are drawn (as they are for every formatter the
renderer builds), and the border glyph strings contain no newline or
carriage return, with nonempty right border and corner glyphs. -/
def goodFormatter (f : Formatter) : Prop :=
  (rustLines f.cell.content).length ≤ f.height ∧
  f.right = true ∧ f.bottom = true ∧ f.right_connection = true ∧
  '\n' ∉ f.cell.border.top ∧ '\r' ∉ f.cell.border.top ∧
  '\n' ∉ f.cell.border.bottom ∧ '\r' ∉ f.cell.border.bottom ∧
  '\n' ∉ f.cell.border.left ∧ '\r' ∉ f.cell.border.left ∧
  '\n' ∉ f.cell.border.right ∧ '\r' ∉ f.cell.border.right ∧
  '\n' ∉ f.cell.border.corner ∧ '\r' ∉ f.cell.border.corner ∧
  f.cell.border.right ≠ [] ∧ f.cell.border.corner ≠ []

instance (f : Formatter) : Decidable (goodFormatter f) := by
  unfold goodFormatter
  infer_instance

/-- A character of a repeated glyph string comes from the glyph. -/
theorem mem_repeatStr {c : Char} {s : Str} {n : ℕ} (h : c ∈ repeatStr s n) : c ∈ s := by
  unfold repeatStr at h
  obtain ⟨l, hl, hc⟩ := List.mem_flatten.mp h
  rwa [List.eq_of_mem_replicate hl] at hc

/-- A character of an aligned line is a character of the line or a
padding space. -/
theorem mem_alignStr {c : Char} {l : Str} {a : Alignment} {n : ℕ}
    (h : c ∈ alignStr l a n) : c ∈ l ∨ c = ' ' := by
  unfold alignStr at h
  by_cases hle : n ≤ l.length
  · rw [if_pos hle] at h
    exact Or.inl h
  · rw [if_neg hle] at h
    cases a with
    | center =>
      rcases List.mem_append.mp h with h | h
      · rcases List.mem_append.mp h with h | h
        · exact Or.inr (List.eq_of_mem_replicate h)
        · exact Or.inl h
      · exact Or.inr (List.eq_of_mem_replicate h)
    | left =>
      rcases List.mem_append.mp h with h | h
      · exact Or.inl h
      · exact Or.inr (List.eq_of_mem_replicate h)
    | right =>
      rcases List.mem_append.mp h with h | h
      · exact Or.inr (List.eq_of_mem_replicate h)
      · exact Or.inl h

/-- A nonempty list that does not contain a character does not end with
it. -/
theorem getLast?_ne_of_not_mem {s : Str} {c : Char} (h : c ∉ s) :
    s.getLast? ≠ some c :=
  fun heq => h (mem_of_getLast?_eq heq)

/-- Every element of a `zipWith` comes from a pair of elements of the
two lists. -/
theorem exists_of_mem_zipWith {α β γ : Type} (f : α → β → γ) :
    ∀ (as : List α) (bs : List β), ∀ x ∈ List.zipWith f as bs,
      ∃ a ∈ as, ∃ b ∈ bs, x = f a b := by
  intro as
  induction as with
  | nil => intro bs x hx; cases hx
  | cons a as ih =>
    intro bs x hx
    cases bs with
    | nil => cases hx
    | cons b bs =>
      rcases List.mem_cons.mp hx with hx | hx
      · exact ⟨a, List.mem_cons_self _ _, b, List.mem_cons_self _ _, hx⟩
      · obtain ⟨a', ha', b', hb', hx'⟩ := ih bs x hx
        exact ⟨a', List.mem_cons_of_mem _ ha', b', List.mem_cons_of_mem _ hb', hx'⟩

/-- Positionwise concatenation of two equally long line lists: when the
second list does not end with an empty line, neither does the
concatenation. -/
theorem getLast?_zipWith_append_ne_nil :
    ∀ (as bs : List Str), as.length = bs.length → bs.getLast? ≠ some [] →
      (List.zipWith (fun x y => x ++ y) as bs).getLast? ≠ some [] := by
  intro as
  induction as with
  | nil =>
    intro bs _ _
    simp
  | cons a as ih =>
    intro bs hlen hbl
    cases bs with
    | nil => cases hlen
    | cons b bs =>
      cases as with
      | nil =>
        cases bs with
        | nil =>
          simp only [List.zipWith_cons_cons, List.zipWith_nil_left,
            List.getLast?_singleton, ne_eq, Option.some.injEq]
          intro hq
          rw [List.append_eq_nil] at hq
          exact hbl (by simp [hq.2])
        | cons b' bs' => cases hlen
      | cons a' as' =>
        cases bs with
        | nil => cases hlen
        | cons b' bs' =>
          rw [List.zipWith_cons_cons, List.zipWith_cons_cons]
          rw [List.getLast?_cons_cons]
          rw [← List.zipWith_cons_cons]
          refine ih (b' :: bs') (by simpa using hlen) ?_
          rwa [List.getLast?_cons_cons] at hbl

/-- Every line the formatter emits is free of newlines and does not end
in a carriage return. -/
theorem formatLines_mem_clean (f : Formatter) (hg : goodFormatter f) :
    ∀ l ∈ f.formatLines, '\n' ∉ l ∧ l.getLast? ≠ some '\r' := by
  obtain ⟨hnat, hr, hb, hrc, htn, htr, hbn, hbr, hln, hlr, hrn, hrr, hcn, hcr,
    hrne, hcne⟩ := hg
  intro l hl
  unfold Formatter.formatLines at hl
  dsimp only at hl
  simp only [hb, hrc, hr, eq_self_iff_true, if_true] at hl
  have hborder : ∀ (glyph lhs : Str), '\n' ∉ glyph → lhs = f.cell.border.corner ∨ lhs = [] →
      '\n' ∉ lhs ++ repeatStr glyph (((if f.weight = 0
          then maxD0 ((rustLines f.cell.content).map List.length) else f.weight)) +
        f.cell.ident.left + f.cell.ident.right) ++ f.cell.border.corner ∧
      (lhs ++ repeatStr glyph (((if f.weight = 0
          then maxD0 ((rustLines f.cell.content).map List.length) else f.weight)) +
        f.cell.ident.left + f.cell.ident.right) ++ f.cell.border.corner).getLast? ≠
        some '\r' := by
    intro glyph lhs hgl hlhs
    constructor
    · intro hmem
      rcases List.mem_append.mp hmem with hmem | hmem
      · rcases List.mem_append.mp hmem with hmem | hmem
        · rcases hlhs with hlhs | hlhs
          · rw [hlhs] at hmem; exact hcn hmem
          · rw [hlhs] at hmem; cases hmem
        · exact hgl (mem_repeatStr hmem)
      · exact hcn hmem
    · rw [List.getLast?_append_of_ne_nil _ hcne]
      exact getLast?_ne_of_not_mem hcr
  have hcontent : ∀ s ∈ rustLines (List.replicate f.cell.ident.top '\n' ++
        (padTo f.cell.content f.height ++ List.replicate f.cell.ident.bottom '\n')),
      '\n' ∉ (if f.left then f.cell.border.left else []) ++
          (List.replicate f.cell.ident.left ' ' ++
            alignStr s f.cell.alignment ((if f.weight = 0
              then maxD0 ((rustLines f.cell.content).map List.length) else f.weight)) ++
            List.replicate f.cell.ident.right ' ') ++ f.cell.border.right ∧
      ((if f.left then f.cell.border.left else []) ++
          (List.replicate f.cell.ident.left ' ' ++
            alignStr s f.cell.alignment ((if f.weight = 0
              then maxD0 ((rustLines f.cell.content).map List.length) else f.weight)) ++
            List.replicate f.cell.ident.right ' ') ++ f.cell.border.right).getLast? ≠
        some '\r' := by
    intro s hs
    have hsnl : '\n' ∉ s := not_mem_of_mem_rustLines hs
    constructor
    · intro hmem
      rcases List.mem_append.mp hmem with hmem | hmem
      · rcases List.mem_append.mp hmem with hmem | hmem
        · by_cases hlf : f.left
          · rw [if_pos hlf] at hmem; exact hln hmem
          · rw [if_neg hlf] at hmem; cases hmem
        · rcases List.mem_append.mp hmem with hmem | hmem
          · rcases List.mem_append.mp hmem with hmem | hmem
            · exact absurd (List.eq_of_mem_replicate hmem) (by decide)
            · rcases mem_alignStr hmem with hmem | hmem
              · exact hsnl hmem
              · exact absurd hmem (by decide)
          · exact absurd (List.eq_of_mem_replicate hmem) (by decide)
      · exact hrn hmem
    · rw [List.getLast?_append_of_ne_nil _ hrne]
      exact getLast?_ne_of_not_mem hrr
  by_cases htop : f.top = true
  · simp only [htop, eq_self_iff_true, if_true] at hl
    rcases List.mem_append.mp hl with hl | hl
    · rcases List.mem_cons.mp hl with hl | hl
      · subst hl
        exact hborder f.cell.border.top
          (if f.left_connection = true then f.cell.border.corner else []) htn
          (by
          by_cases hq : f.left_connection = true
          · rw [if_pos hq]; exact Or.inl rfl
          · rw [if_neg hq]; exact Or.inr rfl)
      · obtain ⟨s, hs, rfl⟩ := List.mem_map.mp hl
        exact hcontent s hs
    · rw [List.mem_singleton.mp hl]
      exact hborder f.cell.border.bottom
          (if f.left_connection = true then f.cell.border.corner else []) hbn
          (by
          by_cases hq : f.left_connection = true
          · rw [if_pos hq]; exact Or.inl rfl
          · rw [if_neg hq]; exact Or.inr rfl)
  · rw [Bool.not_eq_true] at htop
    simp only [htop, Bool.false_eq_true, if_false] at hl
    rcases List.mem_append.mp hl with hl | hl
    · obtain ⟨s, hs, rfl⟩ := List.mem_map.mp hl
      exact hcontent s hs
    · rw [List.mem_singleton.mp hl]
      exact hborder f.cell.border.bottom
          (if f.left_connection = true then f.cell.border.corner else []) hbn
          (by
          by_cases hq : f.left_connection = true
          · rw [if_pos hq]; exact Or.inl rfl
          · rw [if_neg hq]; exact Or.inr rfl)

/-- The formatter always emits at least one line (the bottom border
line, for a formatter with the bottom flag set), and the last emitted
line is nonempty (it ends with the nonempty corner glyph). -/
theorem formatLines_last (f : Formatter) (hbot : f.bottom = true)
    (hcne : f.cell.border.corner ≠ []) (hrc : f.right_connection = true) :
    f.formatLines ≠ [] ∧ f.formatLines.getLast? ≠ some [] := by
  unfold Formatter.formatLines
  dsimp only
  simp only [hbot, hrc, eq_self_iff_true, if_true]
  constructor
  · intro hq
    rw [List.append_eq_nil] at hq
    cases hq.2
  · rw [List.getLast?_concat, ne_eq, Option.some.injEq]
    intro hq
    rw [List.append_eq_nil] at hq
    exact hcne hq.2

/-- The number of lines the formatter emits: an optional top border
line, top padding, exactly `height` content lines, bottom padding, and
the bottom border line. -/
theorem formatLines_length (f : Formatter)
    (hnat : (rustLines f.cell.content).length ≤ f.height) (hbot : f.bottom = true) :
    f.formatLines.length =
      (if f.top then 1 else 0) +
        (f.cell.ident.top + f.height + f.cell.ident.bottom) + 1 := by
  unfold Formatter.formatLines
  dsimp only
  simp only [hbot, eq_self_iff_true, if_true]
  rw [List.length_append]
  by_cases htop : f.top = true
  · simp only [htop, eq_self_iff_true, if_true]
    rw [List.length_cons, List.length_map, content_block_length hnat]
    simp only [List.length_singleton]
    omega
  · rw [Bool.not_eq_true] at htop
    simp only [htop, Bool.false_eq_true, if_false]
    rw [List.length_map, content_block_length hnat]
    simp only [List.length_singleton]
    omega

/-- For a good formatter, the lines of the formatted string are exactly
the lines the formatter assembled: the final `join("\n")` round-trips
through `str::lines`. -/
theorem rustLines_format (f : Formatter) (hg : goodFormatter f) :
    rustLines f.format = f.formatLines := by
  obtain ⟨hnat, hr, hb, hrc, htn, htr, hbn, hbr, hln, hlr, hrn, hrr, hcn, hcr,
    hrne, hcne⟩ := hg
  have hlast := formatLines_last f hb hcne hrc
  exact rustLines_joinNl hlast.1
    (fun l hl => (formatLines_mem_clean f
      ⟨hnat, hr, hb, hrc, htn, htr, hbn, hbr, hln, hlr, hrn, hrr, hcn, hcr,
        hrne, hcne⟩ l hl).1)
    (fun l hl => (formatLines_mem_clean f
      ⟨hnat, hr, hb, hrc, htn, htr, hbn, hbr, hln, hlr, hrn, hrr, hcn, hcr,
        hrne, hcne⟩ l hl).2)
    hlast.2

/-- One `concat_lines` step preserves the common line count. -/
theorem concatLines_step {acc b : Str} {n : ℕ} (hacc : (rustLines acc).length = n)
    (hb : (rustLines b).length = n) (hbl : (rustLines b).getLast? ≠ some []) :
    ∃ j, concatLines acc b = some j ∧ (rustLines j).length = n := by
  unfold concatLines
  rw [if_pos (by rw [hacc, hb])]
  refine ⟨_, rfl, ?_⟩
  cases n with
  | zero =>
    have ha0 : rustLines acc = [] := List.length_eq_zero.mp hacc
    have hb0 : rustLines b = [] := List.length_eq_zero.mp hb
    rw [ha0, hb0]
    rfl
  | succ m =>
    have hzlen : (List.zipWith (fun x y => x ++ y) (rustLines acc) (rustLines b)).length =
        m + 1 := by
      rw [List.length_zipWith, hacc, hb]
      omega
    rw [rustLines_joinNl_length (by intro hq; rw [hq] at hzlen; cases hzlen) ?hnl ?hlast,
      hzlen]
    case hnl =>
      intro l hl
      obtain ⟨a, ha, c, hc, rfl⟩ :=
        exists_of_mem_zipWith (fun x y => x ++ y) (rustLines acc) (rustLines b) l hl
      intro hmem
      rcases List.mem_append.mp hmem with hmem | hmem
      · exact not_mem_of_mem_rustLines ha hmem
      · exact not_mem_of_mem_rustLines hc hmem
    case hlast =>
      exact getLast?_zipWith_append_ne_nil (rustLines acc) (rustLines b)
        (by rw [hacc, hb]) hbl

/-- The `concat_lines` fold of `concat_row` succeeds on any list of
blocks sharing one line count whose last lines are nonempty. -/
theorem foldlM_concatLines_some {n : ℕ} :
    ∀ (blocks : List Str) (acc : Str), (rustLines acc).length = n →
      (∀ b ∈ blocks, (rustLines b).length = n ∧ (rustLines b).getLast? ≠ some []) →
      ∃ s, blocks.foldlM concatLines acc = some s := by
  intro blocks
  induction blocks with
  | nil => intro acc _ _; exact ⟨acc, rfl⟩
  | cons b rest ih =>
    intro acc hacc hb
    obtain ⟨hbn, hbl⟩ := hb b (List.mem_cons_self _ _)
    obtain ⟨j, hj, hjn⟩ := concatLines_step hacc hbn hbl
    rw [List.foldlM_cons, hj]
    simp only [Option.bind_eq_bind, Option.some_bind]
    exact ih j hjn (fun x hx => hb x (List.mem_cons_of_mem _ hx))

/-- C10 amended: the equal-padding hypothesis alone does not keep
`concat_lines` from failing (see the counterexample with a newline
inside a corner glyph); for a row of formatters whose cells in addition
carry newline- and carriage-return-free border glyphs with nonempty
right border and corner — as all default glyphs are — and agree on the
top flag, top padding, assigned height and bottom padding, every two
formatted blocks have the same number of lines and the `concat_lines`
fold of `concat_row` succeeds. -/
theorem C10_amended_concat (fs : List Formatter)
    (hgood : ∀ f ∈ fs, goodFormatter f)
    (heq : ∀ f1 ∈ fs, ∀ f2 ∈ fs,
      f1.top = f2.top ∧ f1.cell.ident.top = f2.cell.ident.top ∧
      f1.height = f2.height ∧ f1.cell.ident.bottom = f2.cell.ident.bottom) :
    (∀ f1 ∈ fs, ∀ f2 ∈ fs,
      (rustLines f1.format).length = (rustLines f2.format).length) ∧
    (concatRow (fs.map Formatter.format)).isSome = true := by
  have hlen : ∀ f ∈ fs, (rustLines f.format).length =
      (if f.top then 1 else 0) +
        (f.cell.ident.top + f.height + f.cell.ident.bottom) + 1 := by
    intro f hf
    rw [rustLines_format f (hgood f hf)]
    exact formatLines_length f (hgood f hf).1 (hgood f hf).2.2.1
  have hpair : ∀ f1 ∈ fs, ∀ f2 ∈ fs,
      (rustLines f1.format).length = (rustLines f2.format).length := by
    intro f1 h1 f2 h2
    rw [hlen f1 h1, hlen f2 h2]
    obtain ⟨ht, hit, hh, hib⟩ := heq f1 h1 f2 h2
    rw [ht, hit, hh, hib]
  refine ⟨hpair, ?_⟩
  cases hfs : fs with
  | nil => rfl
  | cons f rest =>
    subst hfs
    have hblocks : ∀ b ∈ rest.map Formatter.format,
        (rustLines b).length = (rustLines f.format).length ∧
        (rustLines b).getLast? ≠ some [] := by
      intro b hbmem
      obtain ⟨f', hf', rfl⟩ := List.mem_map.mp hbmem
      have hf'mem : f' ∈ f :: rest := List.mem_cons_of_mem _ hf'
      obtain ⟨hnat, hr, hb, hrc, htn, htr, hbn, hbr, hln, hlr, hrn, hrr, hcn, hcr,
        hrne, hcne⟩ := hgood f' hf'mem
      refine ⟨hpair f' hf'mem f (List.mem_cons_self _ _), ?_⟩
      rw [rustLines_format f' (hgood f' hf'mem)]
      exact (formatLines_last f' hb hcne hrc).2
    obtain ⟨s, hs⟩ :=
      foldlM_concatLines_some (rest.map Formatter.format) f.format rfl hblocks
    show ((rest.map Formatter.format).foldlM concatLines f.format).isSome = true
    rw [hs]
    rfl

/-- Concrete witness for the amended C10 at the formatter row the
renderer builds for row 0 of the 2×2 test grid. -/
theorem C10_amended_witness :
    (∀ f ∈ buildRowFormatters 0 ((rowsOf cwgrid.cells 2 2).getD 0 []) [(3, 1), (3, 1)],
      goodFormatter f) ∧
    (∀ f1 ∈ buildRowFormatters 0 ((rowsOf cwgrid.cells 2 2).getD 0 []) [(3, 1), (3, 1)],
     ∀ f2 ∈ buildRowFormatters 0 ((rowsOf cwgrid.cells 2 2).getD 0 []) [(3, 1), (3, 1)],
      f1.top = f2.top ∧ f1.cell.ident.top = f2.cell.ident.top ∧
      f1.height = f2.height ∧ f1.cell.ident.bottom = f2.cell.ident.bottom) ∧
    ((∀ f1 ∈ buildRowFormatters 0 ((rowsOf cwgrid.cells 2 2).getD 0 []) [(3, 1), (3, 1)],
      ∀ f2 ∈ buildRowFormatters 0 ((rowsOf cwgrid.cells 2 2).getD 0 []) [(3, 1), (3, 1)],
       (rustLines f1.format).length = (rustLines f2.format).length) ∧
     (concatRow ((buildRowFormatters 0 ((rowsOf cwgrid.cells 2 2).getD 0 [])
        [(3, 1), (3, 1)]).map Formatter.format)).isSome = true) :=
  ⟨by decide, by decide,
   C10_amended_concat
     (buildRowFormatters 0 ((rowsOf cwgrid.cells 2 2).getD 0 []) [(3, 1), (3, 1)])
     (by decide) (by decide)⟩

/-! ## Claim C1 (amended): what the `adjust` pass actually equalizes -/

/-- Adding the same amount to every cell weight of a row raises the
row's total full weight by `length * amount`. -/
theorem sum_fullWeight_map_withWeight (r : List Formatter) (q : ℕ) :
    ((r.map (fun f => f.withWeight (f.weight + q))).map Formatter.fullWeight).sum =
      (r.map Formatter.fullWeight).sum + r.length * q := by
  induction r with
  | nil => simp
  | cons f t ih =>
    simp only [List.map_cons, List.sum_cons, List.length_cons,
      Formatter.withWeight, Formatter.fullWeight] at ih ⊢
    rw [ih]
    ring

/-- C1 amended: the `adjust` pass does not make every row reach the
common target width — integer division drops the remainder of each
row's shortfall.  Precisely: each adjusted row's total full weight is
`target - (target - total) % length`, so a row reaches the target
exactly when its shortfall is divisible by its cell count (the
counterexample grid has a row with shortfall 2 over 3 cells and renders
non-rectangular output). -/
theorem C1_amended_adjust (rows out : List (List Formatter)) (target : ℕ)
    (htarget : adjustTarget rows = some target)
    (hadj : adjust rows = some out) :
    ∀ r ∈ rows, ∃ r' ∈ out,
      r' = r.map (fun f => f.withWeight (f.weight +
        (target - (r.map Formatter.fullWeight).sum) / r.length)) ∧
      (r'.map Formatter.fullWeight).sum =
        target - (target - (r.map Formatter.fullWeight).sum) % r.length ∧
      ((target - (r.map Formatter.fullWeight).sum) % r.length = 0 →
        (r'.map Formatter.fullWeight).sum = target) := by
  intro r hr
  unfold adjust at hadj
  rw [htarget] at hadj
  simp only [Option.bind_eq_bind, Option.some_bind] at hadj
  obtain ⟨r', hr'mem, hfr⟩ := mapM_mem_of_some hadj r hr
  refine ⟨r', hr'mem, ?_⟩
  by_cases h1 : target < (r.map Formatter.fullWeight).sum
  · rw [if_pos h1] at hfr
    cases hfr
  · rw [if_neg h1] at hfr
    by_cases h2 : r.length = 0
    · rw [if_pos h2] at hfr
      cases hfr
    · rw [if_neg h2] at hfr
      rw [Option.pure_def, Option.some.injEq] at hfr
      subst hfr
      have hsum : ((r.map (fun f => f.withWeight (f.weight +
          (target - (r.map Formatter.fullWeight).sum) / r.length))).map
            Formatter.fullWeight).sum =
          target - (target - (r.map Formatter.fullWeight).sum) % r.length := by
        rw [sum_fullWeight_map_withWeight]
        have hdm := Nat.div_add_mod (target - (r.map Formatter.fullWeight).sum) r.length
        have hmle := Nat.mod_le (target - (r.map Formatter.fullWeight).sum) r.length
        omega
      exact ⟨rfl, hsum, fun h0 => by rw [hsum, h0, Nat.sub_zero]⟩

/-- A concrete pair of formatter rows with totals 2 and 1: the target
is 2 and the shortfall 1 of the second row is divisible by its cell
count 1, so both rows reach total 2. -/
def c1rows : List (List Formatter) :=
  [[(Formatter.new Cell.new).withWeight 2], [(Formatter.new Cell.new).withWeight 1]]

theorem C1_amended_witness :
    adjustTarget c1rows = some 2 ∧
    adjust c1rows = some [[(Formatter.new Cell.new).withWeight 2],
      [(Formatter.new Cell.new).withWeight 2]] ∧
    ∀ r ∈ c1rows, ∃ r' ∈ [[(Formatter.new Cell.new).withWeight 2],
        [(Formatter.new Cell.new).withWeight 2]],
      r' = r.map (fun f => f.withWeight (f.weight +
        (2 - (r.map Formatter.fullWeight).sum) / r.length)) ∧
      (r'.map Formatter.fullWeight).sum =
        2 - (2 - (r.map Formatter.fullWeight).sum) % r.length ∧
      ((2 - (r.map Formatter.fullWeight).sum) % r.length = 0 →
        (r'.map Formatter.fullWeight).sum = 2) :=
  ⟨by decide, by decide,
   C1_amended_adjust c1rows
     [[(Formatter.new Cell.new).withWeight 2], [(Formatter.new Cell.new).withWeight 2]]
     2 (by decide) (by decide)⟩

end Papergrid
